import Mathlib

/-!
Verification of the prompt-canvas graph core against its specification.

The definitions below are a shallow embedding of the JavaScript source:

* `CustomEdge.jsx` (edge routing `getSmartPath`, activation toggle
  `handleToggleActive`);
* the main `App` component (`duplicateNode`, `toggleAllExpanded` layout,
  `onConnect`, `addNode`, `deleteNode`, `copyAllConnected`,
  `copyPathFromNode`, the attached-image sync effect);
* `TemplateBuilder.jsx` (`extractParams`, `preview`);
* `utils/imageHandler.js` (`calculateAnchorPosition`).

JavaScript objects become structures; absent fields become `Option`;
JS `data?.field || fallback` reads become `Option` matches that also
treat the empty string / zero like JS falsiness where the code relies
on it.  Numbers are `Rat` for positions (the code only adds, subtracts,
halves and compares them) and `Real` for the edge-routing geometry
(which takes a square root).  React state setters become pure
functions from the edge/node lists to new lists.
-/

namespace PromptCanvas

/-- Position of a node: the `{x, y}` object of the source. -/
structure Pos where
  x : ℚ
  y : ℚ
deriving DecidableEq, Repr

/-- Node kinds: the `type` field of a React Flow node in this app is one of
`"prompt"`, `"template"`, `"group"`, `"image"`. -/
inductive NodeType where
  | prompt
  | template
  | group
  | image
deriving DecidableEq, Repr

/-- Explicit `style: {width, height}` of a node (absent on nodes that were
never given one). -/
structure NodeStyle where
  width : ℚ
  height : ℚ
deriving DecidableEq, Repr

/-- The `data` object of a node.  Fields used by the verified operations;
fields that are absent in JS are `Option`s. -/
structure NodeData where
  title : Option String := none
  content : Option String := none
  template : Option String := none
  values : List (String × String) := []
  color : Option String := none
  attachedTo : Option String := none
  anchorPoint : Option String := none
  offset : Option Pos := none
deriving DecidableEq, Repr

/-- A node of the sheet.  `parentNode` is React Flow's name for the spec's
`parentGroupId`. -/
structure Node where
  id : String
  type : NodeType
  position : Pos
  parentNode : Option String := none
  style : Option NodeStyle := none
  data : NodeData := {}
deriving DecidableEq, Repr

/-- The `data` object of an edge: a color and the branch-activation flag.
A fresh edge from `onConnect` has no `active` key at all, hence `Option`. -/
structure EdgeData where
  color : Option String := none
  active : Option Bool := none
deriving DecidableEq, Repr

/-- An edge of the sheet. -/
structure Edge where
  id : String
  source : String
  target : String
  data : EdgeData := {}
deriving DecidableEq, Repr

/-! ## Branch activation (`CustomEdge.handleToggleActive`) -/

/-- One step of `handleToggleActive` for a clicked edge with id `eid` and
target `tgt`: the body of the `edges.map` callback. -/
def toggleActiveStep (eid tgt : String) (e : Edge) : Edge :=
  if e.target = tgt ∧ e.id ≠ eid then
    { e with data := { e.data with active := some false } }
  else if e.id = eid then
    { e with data := { e.data with active := some true } }
  else
    e

/-- The `setActive(edgeId)` operation of the spec.  In `CustomEdge.jsx` the
clicked edge's `id` and `target` are component props; an unknown id leaves
the list unchanged (the component only exists for a present edge, and the
spec says activating an unknown edge is a silent no-op). -/
def setActive (edges : List Edge) (eid : String) : List Edge :=
  match edges.find? (fun e => e.id = eid) with
  | none => edges
  | some clicked => edges.map (toggleActiveStep eid clicked.target)

/-- The branch invariant of the spec: no two edges of the list share a
target while both having `active` literally `true`. -/
def AtMostOneActive (edges : List Edge) : Prop :=
  edges.Pairwise (fun e₁ e₂ =>
    ¬(e₁.target = e₂.target ∧ e₁.data.active = some true ∧
      e₂.data.active = some true))

instance (edges : List Edge) : Decidable (AtMostOneActive edges) :=
  inferInstanceAs (Decidable (List.Pairwise _ _))

theorem toggleActiveStep_id (eid tgt : String) (e : Edge) :
    (toggleActiveStep eid tgt e).id = e.id := by
  unfold toggleActiveStep
  split <;> try split
  all_goals rfl

theorem toggleActiveStep_target (eid tgt : String) (e : Edge) :
    (toggleActiveStep eid tgt e).target = e.target := by
  unfold toggleActiveStep
  split <;> try split
  all_goals rfl

theorem setActive_map_id (edges : List Edge) (eid : String) :
    (setActive edges eid).map Edge.id = edges.map Edge.id := by
  unfold setActive
  cases h : edges.find? (fun e => e.id = eid) with
  | none => rfl
  | some clicked =>
      simp only [List.map_map]
      exact List.map_congr_left fun e _ => toggleActiveStep_id _ _ e

/-- Activation of the clicked edge under `toggleActiveStep`: the result is
`some true` exactly when the edge is the clicked one, or it kept its old
flag while being off-target. -/
theorem toggleActiveStep_active_true (eid tgt : String) (e : Edge)
    (h : (toggleActiveStep eid tgt e).data.active = some true) :
    e.id = eid ∨ (e.id ≠ eid ∧ e.target ≠ tgt ∧ e.data.active = some true) := by
  unfold toggleActiveStep at h
  by_cases h₁ : e.target = tgt ∧ e.id ≠ eid
  · simp [h₁] at h
  · rw [if_neg h₁] at h
    by_cases h₂ : e.id = eid
    · exact Or.inl h₂
    · rw [if_neg h₂] at h
      refine Or.inr ⟨h₂, fun ht => h₁ ⟨ht, h₂⟩, h⟩

theorem setActive_preserves (edges : List Edge) (eid : String)
    (hids : (edges.map Edge.id).Nodup) (hinv : AtMostOneActive edges) :
    AtMostOneActive (setActive edges eid) := by
  unfold setActive
  cases hf : edges.find? (fun e => e.id = eid) with
  | none => exact hinv
  | some clicked =>
      have hcid : clicked.id = eid := by
        have := List.find?_some hf
        exact of_decide_eq_true this
      have hcmem : clicked ∈ edges := List.mem_of_find?_eq_some hf
      have hinj : ∀ a ∈ edges, ∀ b ∈ edges, a.id = b.id → a = b :=
        List.inj_on_of_nodup_map hids
      unfold AtMostOneActive
      rw [List.pairwise_map]
      have hpair : List.Pairwise (fun a b : Edge => a.id ≠ b.id) edges :=
        List.pairwise_map.mp hids
      refine List.Pairwise.imp_of_mem ?_ (hinv.and hpair)
      intro a b ha hb hab hcontra
      obtain ⟨htgt, hat, hbt⟩ := hcontra
      rw [toggleActiveStep_target, toggleActiveStep_target] at htgt
      rcases toggleActiveStep_active_true _ _ _ hat with haid | ⟨haid, hat', haold⟩
      · rcases toggleActiveStep_active_true _ _ _ hbt with hbid | ⟨hbid, hbt', hbold⟩
        · exact hab.2 (haid.trans hbid.symm)
        · -- a is the clicked edge, so a.target = clicked.target, but b avoids it
          have hac : a = clicked := hinj a ha clicked hcmem (haid.trans hcid.symm)
          apply hbt'
          rw [← htgt, hac]
      · rcases toggleActiveStep_active_true _ _ _ hbt with hbid | ⟨hbid, hbt', hbold⟩
        · have hbc : b = clicked := hinj b hb clicked hcmem (hbid.trans hcid.symm)
          apply hat'
          rw [htgt, hbc]
        · exact hab.1 ⟨htgt, haold, hbold⟩

theorem setActive_foldl_preserves (calls : List String) (edges : List Edge)
    (hids : (edges.map Edge.id).Nodup) (hinv : AtMostOneActive edges) :
    AtMostOneActive (calls.foldl setActive edges) := by
  induction calls generalizing edges with
  | nil => exact hinv
  | cons c rest ih =>
      refine ih (setActive edges c) ?_ (setActive_preserves edges c hids hinv)
      rw [setActive_map_id]
      exact hids

/-- Claim C1.  `setActive(edgeId)` (the body of `handleToggleActive` in
`CustomEdge.jsx`) sets the clicked edge's `active` to `true`, sets `active`
to `false` on every other edge sharing its target, and leaves every edge
with a different target unchanged; consequently, starting from any edge
list satisfying the branch invariant, after any sequence of `setActive`
calls at most one edge per target has `active == true`.  Edge ids are
assumed pairwise distinct, as the data model requires. -/
theorem claim_C1_setActive (edges : List Edge) (eid : String) (clicked : Edge)
    (hids : (edges.map Edge.id).Nodup)
    (hfind : edges.find? (fun e => e.id = eid) = some clicked) :
    ({ clicked with data := { clicked.data with active := some true } } ∈
        setActive edges eid
      ∧ (∀ e ∈ edges, e.target = clicked.target → e.id ≠ eid →
          { e with data := { e.data with active := some false } } ∈
            setActive edges eid)
      ∧ (∀ e ∈ edges, e.target ≠ clicked.target → e.id ≠ eid →
          e ∈ setActive edges eid))
    ∧ ∀ calls : List String, AtMostOneActive edges →
        AtMostOneActive (calls.foldl setActive edges) := by
  have hcid : clicked.id = eid := by
    have h1 := List.find?_some hfind
    exact of_decide_eq_true h1
  have hcmem : clicked ∈ edges := List.mem_of_find?_eq_some hfind
  refine ⟨⟨?_, ?_, ?_⟩, fun calls hinv =>
    setActive_foldl_preserves calls edges hids hinv⟩
  · unfold setActive
    rw [hfind]
    refine List.mem_map.mpr ⟨clicked, hcmem, ?_⟩
    unfold toggleActiveStep
    rw [if_neg (fun h => h.2 hcid), if_pos hcid]
  · intro e he htgt hne
    unfold setActive
    rw [hfind]
    refine List.mem_map.mpr ⟨e, he, ?_⟩
    unfold toggleActiveStep
    rw [if_pos ⟨htgt, hne⟩]
  · intro e he htgt hne
    unfold setActive
    rw [hfind]
    refine List.mem_map.mpr ⟨e, he, ?_⟩
    unfold toggleActiveStep
    rw [if_neg (fun h => htgt h.1), if_neg hne]

/-- Concrete edges used by the C1 witness: two fresh edges `A→B` and
`C→B` sharing the target `B` (the spec's branching scenario). -/
def c1Edges : List Edge :=
  [{ id := "e1", source := "A", target := "B" },
   { id := "e2", source := "C", target := "B" }]

/-- Witness for C1: activating `e2` activates it, deactivates its sibling
`e1`, and the invariant holds after the call sequence `[e2, e1]`. -/
theorem claim_C1_setActive_witness :
    ({ id := "e2", source := "C", target := "B",
          data := { active := some true } } ∈ setActive c1Edges "e2")
    ∧ ({ id := "e1", source := "A", target := "B",
          data := { active := some false } } ∈ setActive c1Edges "e2")
    ∧ AtMostOneActive (List.foldl setActive c1Edges ["e2", "e1"]) :=
  ⟨(claim_C1_setActive c1Edges "e2"
      { id := "e2", source := "C", target := "B" } (by decide) (by decide)).1.1,
   (claim_C1_setActive c1Edges "e2"
      { id := "e2", source := "C", target := "B" } (by decide) (by decide)).1.2.1
      { id := "e1", source := "A", target := "B" } (by decide) (by decide)
      (by decide),
   (claim_C1_setActive c1Edges "e2"
      { id := "e2", source := "C", target := "B" } (by decide) (by decide)).2
      ["e2", "e1"] (by decide)⟩

/-! ## Template engine

`copyAllConnected` and `copyPathFromNode` render a template node with
`template.replace(/\x7b\x7b(\w+)\x7d\x7d/g, (_, key) => values[key] || key)`.
The regex `\w+` is one or more of `[A-Za-z0-9_]`; since `\x7d` is not a
word character the regex never backtracks, so the JS semantics is the
left-to-right scan below.  Recursion is structural on a fuel argument so
that the kernel can evaluate it; one unit of fuel is spent per consumed
source character, hence `template.length` fuel always suffices. -/

/-- JS `\w` character class. -/
def isWordChar (c : Char) : Bool := c.isAlphanum || c == '_'

/-- JS `values[key] || key`: the stored value unless it is absent or the
empty string (the only falsy string). -/
def lookupOrName (values : List (String × String)) (name : String) : String :=
  match values.lookup name with
  | some v => if v = "" then name else v
  | none => name

/-- Recognize a `\x7b\x7b\w+\x7d\x7d` placeholder at the head of the
character list; on success return the identifier and the remaining
characters after the closing braces. -/
def matchPlaceholder (cs : List Char) : Option (String × List Char) :=
  match cs with
  | '{' :: '{' :: rest =>
      match rest.takeWhile isWordChar, rest.dropWhile isWordChar with
      | k :: ks, '}' :: '}' :: rest2 => some (String.mk (k :: ks), rest2)
      | _, _ => none
  | _ => none

/-- Scanner for `template.replace(/\x7b\x7b(\w+)\x7d\x7d/g, ...)`: replace
a placeholder where one starts, otherwise emit one character and continue,
exactly as the JS global regex replace does. -/
def renderAux (values : List (String × String)) : Nat → List Char → List Char
  | 0, cs => cs
  | _ + 1, [] => []
  | fuel + 1, c :: cs =>
      match matchPlaceholder (c :: cs) with
      | some (name, rest2) =>
          (lookupOrName values name).data ++ renderAux values fuel rest2
      | none => c :: renderAux values fuel cs

/-- The template renderer of `copyAllConnected` / `copyPathFromNode`. -/
def render (template : String) (values : List (String × String)) : String :=
  String.mk (renderAux values template.data.length template.data)

theorem takeWhile_append_all {p : Char → Bool} {a : List Char} {b : Char}
    {t : List Char} (ha : ∀ c ∈ a, p c = true) (hb : p b = false) :
    (a ++ b :: t).takeWhile p = a ∧ (a ++ b :: t).dropWhile p = b :: t := by
  induction a with
  | nil => simp [List.takeWhile, List.dropWhile, hb]
  | cons c cs ih =>
      have hc : p c = true := ha c (List.mem_cons_self c cs)
      have ih' := ih fun x hx => ha x (List.mem_cons_of_mem c hx)
      simp [List.takeWhile, List.dropWhile, hc, ih'.1, ih'.2]

theorem matchPlaceholder_some {cs : List Char} {name : String}
    {rest2 : List Char} (h : matchPlaceholder cs = some (name, rest2)) :
    cs = '{' :: '{' :: (name.data ++ '}' :: '}' :: rest2) ∧
      name.data ≠ [] ∧ ∀ c ∈ name.data, isWordChar c = true := by
  unfold matchPlaceholder at h
  split at h
  · next rest =>
      split at h
      · next k ks r2 htk hdr =>
          injection h with h
          injection h with hname hrest
          subst hname hrest
          refine ⟨?_, by simp, ?_⟩
          · have := List.takeWhile_append_dropWhile (p := isWordChar) (l := rest)
            rw [htk, hdr] at this
            rw [← this]
          · intro c hc
            rw [show (String.mk (k :: ks)).data = k :: ks from rfl] at hc
            rw [← htk] at hc
            exact List.mem_takeWhile_imp hc
      · exact Option.noConfusion h
  · exact Option.noConfusion h

theorem matchPlaceholder_build {name : String} {rest2 : List Char}
    (hne : name.data ≠ []) (hword : ∀ c ∈ name.data, isWordChar c = true) :
    matchPlaceholder ('{' :: '{' :: (name.data ++ '}' :: '}' :: rest2)) =
      some (name, rest2) := by
  have hbr : isWordChar '}' = false := by decide
  have h := takeWhile_append_all (a := name.data) (t := '}' :: rest2)
    hword hbr
  unfold matchPlaceholder
  rcases hd : name.data with _ | ⟨k, ks⟩
  · exact absurd hd hne
  · rw [hd] at h
    have h1 := h.1
    have h2 := h.2
    simp only [List.cons_append] at h1 h2 ⊢
    rw [h1, h2]
    have hmk : String.mk (k :: ks) = name := by
      cases name
      simp at hd
      rw [hd]
    rw [← hmk]
    rfl

theorem matchPlaceholder_len {cs : List Char} {name : String}
    {rest2 : List Char} (h : matchPlaceholder cs = some (name, rest2)) :
    rest2.length + 5 ≤ cs.length := by
  obtain ⟨hcs, hne, _⟩ := matchPlaceholder_some h
  have hlen1 : 1 ≤ name.data.length := by
    cases hd : name.data
    · exact absurd hd hne
    · simp
  rw [hcs]
  simp only [List.length_cons, List.length_append]
  omega

theorem renderAux_cons_some (values : List (String × String)) (n : Nat)
    {c : Char} {cs : List Char} {name : String} {rest2 : List Char}
    (h : matchPlaceholder (c :: cs) = some (name, rest2)) :
    renderAux values (n + 1) (c :: cs) =
      (lookupOrName values name).data ++ renderAux values n rest2 := by
  simp only [renderAux, h]

theorem renderAux_cons_none (values : List (String × String)) (n : Nat)
    {c : Char} {cs : List Char} (h : matchPlaceholder (c :: cs) = none) :
    renderAux values (n + 1) (c :: cs) = c :: renderAux values n cs := by
  simp only [renderAux, h]

theorem renderAux_fuel (values : List (String × String)) :
    ∀ f₁ f₂ cs, cs.length ≤ f₁ → cs.length ≤ f₂ →
      renderAux values f₁ cs = renderAux values f₂ cs := by
  intro f₁
  induction f₁ with
  | zero =>
      intro f₂ cs h₁ _
      have : cs = [] := List.eq_nil_of_length_eq_zero (Nat.le_zero.mp h₁)
      subst this
      cases f₂ <;> rfl
  | succ n ih =>
      intro f₂ cs h₁ h₂
      match f₂, cs with
      | 0, cs =>
          have : cs = [] := List.eq_nil_of_length_eq_zero (Nat.le_zero.mp h₂)
          subst this
          rfl
      | m + 1, [] => rfl
      | m + 1, c :: cs' =>
          cases hm : matchPlaceholder (c :: cs') with
          | some p =>
              obtain ⟨name, rest2⟩ := p
              have hlen := matchPlaceholder_len hm
              simp only [List.length_cons] at h₁ h₂
              simp only [List.length_cons] at hlen
              rw [renderAux_cons_some values n hm,
                renderAux_cons_some values m hm]
              rw [ih m rest2 (by omega) (by omega)]
          | none =>
              simp only [List.length_cons] at h₁ h₂
              rw [renderAux_cons_none values n hm,
                renderAux_cons_none values m hm]
              rw [ih m cs' (by omega) (by omega)]
theorem matchPlaceholder_none_of_head {c : Char} {cs : List Char}
    (hc : c ≠ '{') : matchPlaceholder (c :: cs) = none := by
  unfold matchPlaceholder
  split
  · next rest heq =>
      injection heq with h1 _
      exact absurd h1 hc
  · rfl

theorem renderAux_emit (values : List (String × String)) :
    ∀ pre rest : List Char, ∀ fuel : Nat, (∀ c ∈ pre, c ≠ '{') →
      (pre ++ rest).length ≤ fuel →
      renderAux values fuel (pre ++ rest) =
        pre ++ renderAux values (fuel - pre.length) rest := by
  intro pre
  induction pre with
  | nil => intro rest fuel _ _; simp
  | cons c pre' ih =>
      intro rest fuel hpre hfuel
      cases fuel with
      | zero => simp at hfuel
      | succ f =>
          have hc : c ≠ '{' := hpre c (List.mem_cons_self c pre')
          have hnone : matchPlaceholder (c :: (pre' ++ rest)) = none :=
            matchPlaceholder_none_of_head hc
          simp only [List.cons_append]
          rw [renderAux_cons_none values f hnone]
          rw [ih rest f (fun x hx => hpre x (List.mem_cons_of_mem c hx))
            (by simp at hfuel ⊢; omega)]
          simp only [List.length_cons]
          rw [show f + 1 - (pre'.length + 1) = f - pre'.length from by omega]

/-- Core statement of the render semantics: a placeholder preceded by
brace-free text is replaced by `values[name] || name`, and scanning
continues after it. -/
theorem render_replaces (pre name post : String)
    (values : List (String × String))
    (hpre : ∀ c ∈ pre.data, c ≠ '{')
    (hne : name.data ≠ [])
    (hword : ∀ c ∈ name.data, isWordChar c = true) :
    render (pre ++ "\x7b\x7b" ++ name ++ "\x7d\x7d" ++ post) values =
      pre ++ lookupOrName values name ++ render post values := by
  have hdata : (pre ++ "\x7b\x7b" ++ name ++ "\x7d\x7d" ++ post).data =
      pre.data ++ ('{' :: '{' :: (name.data ++ '}' :: '}' :: post.data)) := by
    simp only [String.data_append]
    simp [show ("\x7b\x7b" : String).data = ['{', '{'] from rfl,
      show ("\x7d\x7d" : String).data = ['}', '}'] from rfl]
  unfold render
  rw [hdata]
  set rest := '{' :: '{' :: (name.data ++ '}' :: '}' :: post.data) with hrest
  have hemit := renderAux_emit values pre.data rest
    (pre.data ++ rest).length hpre (le_refl _)
  rw [hemit]
  have hlen : (pre.data ++ rest).length - pre.data.length = rest.length := by
    simp
  rw [hlen]
  have hrlen : rest.length = ('{' :: (name.data ++ '}' :: '}' :: post.data)).length + 1 := by
    rw [hrest]
    simp
  rw [hrest, hrlen]
  rw [renderAux_cons_some values _ (matchPlaceholder_build hne hword)]
  have hpost : ('{' :: (name.data ++ '}' :: '}' :: post.data)).length ≥
      post.data.length := by
    simp
    omega
  rw [renderAux_fuel values _ post.data.length post.data hpost (le_refl _)]
  apply String.ext
  simp [String.data_append, render]

/-! ## TemplateBuilder: `extractParams` and `preview`

`extractParams` runs `/\x7b\x7b(\w+)\x7d\x7d/g` with `exec` in a loop,
collecting each captured identifier the first time it occurs.  `preview`
then replaces, for each parameter in turn, every occurrence of its
placeholder by `defaultValues[param] || "\x7b\x7b" + param + "\x7d\x7d"`:
missing or empty values keep the original placeholder token, unlike the
path-text `render` above. -/

def extractParamsAux : Nat → List Char → List String
  | 0, _ => []
  | _ + 1, [] => []
  | fuel + 1, c :: cs =>
      match matchPlaceholder (c :: cs) with
      | some (name, rest2) => name :: extractParamsAux fuel rest2
      | none => extractParamsAux fuel cs

/-- The match sequence of the JS exec loop, deduplicated in first-occurrence
order (`if (!params.includes(match[1])) params.push(match[1])`). -/
def extractParams (template : String) : List String :=
  (extractParamsAux template.data.length template.data).foldl
    (fun acc k => if k ∈ acc then acc else acc ++ [k]) []

/-- Literal global string replacement, the effect of
`String.prototype.replace` with a global regex whose pattern is a literal
(the placeholder of a fixed parameter): scan left to right, replace each
non-overlapping occurrence, continue after the replaced text. -/
def replaceAllAux (pat repl : List Char) : Nat → List Char → List Char
  | 0, s => s
  | _ + 1, [] => []
  | fuel + 1, c :: cs =>
      if pat ≠ [] ∧ (c :: cs).take pat.length = pat then
        repl ++ replaceAllAux pat repl fuel ((c :: cs).drop pat.length)
      else
        c :: replaceAllAux pat repl fuel cs

def replaceAllStr (s pat repl : String) : String :=
  String.mk (replaceAllAux pat.data repl.data s.data.length s.data)

/-- JS `defaultValues[param] || "\x7b\x7b" + param + "\x7d\x7d"`. -/
def previewValue (defaultValues : List (String × String))
    (param : String) : String :=
  match defaultValues.lookup param with
  | some v =>
      if v = "" then "\x7b\x7b" ++ param ++ "\x7d\x7d" else v
  | none => "\x7b\x7b" ++ param ++ "\x7d\x7d"

/-- The `preview` memo of `TemplateBuilder.jsx`. -/
def preview (template : String)
    (defaultValues : List (String × String)) : String :=
  (extractParams template).foldl
    (fun result param =>
      replaceAllStr result ("\x7b\x7b" ++ param ++ "\x7d\x7d")
        (previewValue defaultValues param))
    template

theorem replaceAllAux_self (pat : List Char) :
    ∀ fuel s, replaceAllAux pat pat fuel s = s := by
  intro fuel
  induction fuel with
  | zero => intro s; rfl
  | succ n ih =>
      intro s
      match s with
      | [] => rfl
      | c :: cs =>
          simp only [replaceAllAux]
          split
          · next h =>
              rw [ih]
              conv_rhs => rw [← List.take_append_drop pat.length (c :: cs)]
              rw [h.2]
          · rw [ih]

theorem preview_no_values (t : String) : preview t [] = t := by
  unfold preview
  generalize extractParams t = params
  induction params generalizing t with
  | nil => rfl
  | cons p ps ih =>
      simp only [List.foldl_cons]
      have hstep : replaceAllStr t ("\x7b\x7b" ++ p ++ "\x7d\x7d")
          (previewValue [] p) = t := by
        unfold previewValue
        simp only [List.lookup]
        unfold replaceAllStr
        rw [replaceAllAux_self]
      rw [hstep]
      exact ih t
/-- Claim C5, amended.  The path-text renderer (`copyAllConnected` /
`copyPathFromNode`) replaces every placeholder with `values[name]` when
that value is a non-empty string and otherwise with the bare name
(`lookupOrName`), never leaving the original token; the claim's two
scenarios hold; but the TemplateBuilder `preview` — also cited by the
claim — keeps the original placeholder token when a value is missing:
with no stored values the preview is the template itself. -/
theorem claim_C5_render (pre name post : String)
    (values : List (String × String))
    (hpre : ∀ c ∈ pre.data, c ≠ '{')
    (hne : name.data ≠ [])
    (hword : ∀ c ∈ name.data, isWordChar c = true) :
    render (pre ++ "\x7b\x7b" ++ name ++ "\x7d\x7d" ++ post) values =
        pre ++ lookupOrName values name ++ render post values
    ∧ render "Hi \x7b\x7bname\x7d\x7d" [] = "Hi name"
    ∧ render "Hi \x7b\x7bname\x7d\x7d" [("name", "Ada")] = "Hi Ada"
    ∧ ∀ t : String, preview t [] = t :=
  ⟨render_replaces pre name post values hpre hne hword,
   by decide, by decide, preview_no_values⟩

/-- Witness for C5: the general replacement law evaluated at
`pre = "Hi "`, `name = "name"`, `post = ""`. -/
theorem claim_C5_render_witness :
    render ("Hi " ++ "\x7b\x7b" ++ "name" ++ "\x7d\x7d" ++ "")
        [("name", "Ada")] =
      "Hi " ++ lookupOrName [("name", "Ada")] "name" ++
        render "" [("name", "Ada")]
    ∧ render "Hi \x7b\x7bname\x7d\x7d" [] = "Hi name" :=
  ⟨(claim_C5_render "Hi " "name" "" [("name", "Ada")] (by decide) (by decide)
      (by decide)).1,
   (claim_C5_render "Hi " "name" "" [("name", "Ada")] (by decide) (by decide)
      (by decide)).2.1⟩

/-- Counterexample for C5 as stated: the TemplateBuilder `preview`
(lines 66–73 of `TemplateBuilder.jsx`, cited by the claim) renders a
missing value as the original `\x7b\x7bname\x7d\x7d` token, not as the
bare name. -/
theorem claim_C5_counterexample :
    preview "Hi \x7b\x7bname\x7d\x7d" [] = "Hi \x7b\x7bname\x7d\x7d"
    ∧ preview "Hi \x7b\x7bname\x7d\x7d" [] ≠ "Hi name" := by
  constructor
  · exact preview_no_values _
  · rw [preview_no_values]
    decide
/-! ## Active-path traversal (`copyAllConnected`, `copyPathFromNode`)

Both functions filter the edges by `e.data?.active !== false`, build the
active adjacency, run a breadth-first scan with a visited set, and join
the non-blank contributions with a blank line.  The loop is embedded
with a fuel argument so the kernel can evaluate it; `bfsMeasure` fuel is
shown sufficient by the strict-decrease lemmas below. -/

/-- The filter `edges.filter((e) => e.data?.active !== false)`. -/
def activeEdges (edges : List Edge) : List Edge :=
  edges.filter (fun e => e.data.active ≠ some false)

/-- The adjacency list entry `adjacency[nodeId]`: targets of active edges
with the given source, in edge-list order. -/
def connectedTargets (aes : List Edge) (nodeId : String) : List String :=
  (aes.filter (fun e => e.source = nodeId)).map Edge.target

/-- Upper bound on the number of loop iterations still possible from a
given queue/visited state. -/
def bfsMeasure (aes : List Edge) (queue visited : List String) : Nat :=
  (aes.length + 2) *
    ((queue ++ aes.map Edge.target).toFinset \ visited.toFinset).card +
    queue.length

/-- The `while (queue.length > 0)` loop: pop, skip if visited, otherwise
record the id, then enqueue the yet-unvisited active targets (the source
adds the popped id to `visited` before filtering the pushes). -/
def bfsAux (aes : List Edge) : Nat → List String → List String → List String
  | 0, _, _ => []
  | _ + 1, [], _ => []
  | fuel + 1, nodeId :: queue, visited =>
      if nodeId ∈ visited then bfsAux aes fuel queue visited
      else
        nodeId :: bfsAux aes fuel
          (queue ++ (connectedTargets aes nodeId).filter
            (fun t => t ∉ nodeId :: visited))
          (nodeId :: visited)

/-- The visit order of the BFS from the given seed queue. -/
def bfsVisit (aes : List Edge) (queue visited : List String) : List String :=
  bfsAux aes (bfsMeasure aes queue visited) queue visited

/-- For each visited id, `nodes.find(...)`, kept when found and not a
group: the `orderedNodes` array of the source. -/
def orderedNodes (nodes : List Node) (visitIds : List String) : List Node :=
  visitIds.filterMap (fun vid =>
    match nodes.find? (fun n => n.id = vid) with
    | some n => if n.type ≠ NodeType.group then some n else none
    | none => none)

/-- Per-node contribution: templates render, everything else contributes
`node.data?.content || ""`. -/
def contributionOf (n : Node) : String :=
  if n.type = NodeType.template then
    render (n.data.template.getD "") n.data.values
  else n.data.content.getD ""

/-- JS `Array.prototype.join` with a separator. -/
def joinSep (sep : String) : List String → String
  | [] => ""
  | [s] => s
  | s :: rest => s ++ sep ++ joinSep sep rest

/-- JS truthiness of `content.trim()`: some non-whitespace character
exists. -/
def nonBlank (s : String) : Bool := s.data.any (fun c => !c.isWhitespace)

/-- The roots computed by `copyAllConnected` via the
`hasOutgoingActive` / `hasIncomingActive` sets. -/
def rootsOf (nodes : List Node) (aes : List Edge) : List Node :=
  nodes.filter (fun n => n.type ≠ NodeType.group
    ∧ n.id ∈ aes.map Edge.source ∧ n.id ∉ aes.map Edge.target)

/-- The master copy operation.  The early `return` when there are no
roots and no active edges yields the empty result (nothing is copied). -/
def copyAllConnected (nodes : List Node) (edges : List Edge) : String :=
  if (rootsOf nodes (activeEdges edges)).isEmpty ∧
      (activeEdges edges).isEmpty then ""
  else
    joinSep "\n\n"
      (((orderedNodes nodes (bfsVisit (activeEdges edges)
          ((rootsOf nodes (activeEdges edges)).map Node.id) [])).map
        contributionOf).filter nonBlank)

/-- Copy of the active path from a given start node. -/
def copyPathFromNode (nodes : List Node) (edges : List Edge)
    (startNodeId : String) : String :=
  joinSep "\n\n"
    (((orderedNodes nodes (bfsVisit (activeEdges edges)
        [startNodeId] [])).map contributionOf).filter nonBlank)

/-- Root nodes in the words of the spec: non-Group nodes with at least
one outgoing active edge and zero incoming active edges. -/
def rootsSpec (nodes : List Node) (aes : List Edge) : List Node :=
  nodes.filter (fun n => n.type ≠ NodeType.group
    ∧ (∃ e ∈ aes, e.source = n.id) ∧ ¬(∃ e ∈ aes, e.target = n.id))

/-- The claim's description of `computeActivePathText` with the filter
corrected from "non-empty" to "non-blank": seed with the spec's roots,
visit breadth-first, join the non-blank contributions. -/
def copyAllConnectedSpecTrim (nodes : List Node) (edges : List Edge) :
    String :=
  joinSep "\n\n"
    (((orderedNodes nodes
        (bfsVisit (activeEdges edges)
          ((rootsSpec nodes (activeEdges edges)).map Node.id) [])).map
      contributionOf).filter nonBlank)

/-- The claim's description taken literally: contributions are kept when
they are non-empty strings. -/
def copyAllConnectedSpecNonempty (nodes : List Node) (edges : List Edge) :
    String :=
  joinSep "\n\n"
    (((orderedNodes nodes
        (bfsVisit (activeEdges edges)
          ((rootsSpec nodes (activeEdges edges)).map Node.id) [])).map
      contributionOf).filter (fun c => c ≠ ""))
theorem bfsMeasure_pop (aes : List Edge) (nodeId : String)
    (queue visited : List String) :
    bfsMeasure aes queue visited < bfsMeasure aes (nodeId :: queue) visited := by
  unfold bfsMeasure
  have hsub : (queue ++ aes.map Edge.target).toFinset \ visited.toFinset ⊆
      ((nodeId :: queue) ++ aes.map Edge.target).toFinset \
        visited.toFinset := by
    apply Finset.sdiff_subset_sdiff ?_ (Finset.Subset.refl _)
    intro x hx
    simp only [List.toFinset_append, Finset.mem_union, List.mem_toFinset]
      at hx ⊢
    rcases hx with h | h
    · exact Or.inl (List.mem_cons_of_mem _ h)
    · exact Or.inr h
  have hcard := Finset.card_le_card hsub
  have hmul := Nat.mul_le_mul_left (aes.length + 2) hcard
  simp only [List.length_cons]
  omega

theorem bfsMeasure_pop_new (aes : List Edge) (nodeId : String)
    (queue visited : List String) (h : nodeId ∉ visited) :
    bfsMeasure aes
      (queue ++ (connectedTargets aes nodeId).filter
        (fun t => t ∉ nodeId :: visited)) (nodeId :: visited) <
      bfsMeasure aes (nodeId :: queue) visited := by
  unfold bfsMeasure
  set pushes := (connectedTargets aes nodeId).filter
    (fun t => t ∉ nodeId :: visited) with hp
  have hpushlen : pushes.length ≤ aes.length := by
    rw [hp]
    calc ((connectedTargets aes nodeId).filter
          (fun t => t ∉ nodeId :: visited)).length
        ≤ (connectedTargets aes nodeId).length := List.length_filter_le _ _
      _ ≤ aes.length := by
          unfold connectedTargets
          rw [List.length_map]
          exact List.length_filter_le _ _
  set A := ((nodeId :: queue) ++ aes.map Edge.target).toFinset \
    visited.toFinset with hA
  set Bs := ((queue ++ pushes) ++ aes.map Edge.target).toFinset \
    (nodeId :: visited).toFinset with hB
  have hnA : nodeId ∈ A := by
    rw [hA]
    simp only [Finset.mem_sdiff, List.toFinset_append, Finset.mem_union,
      List.mem_toFinset]
    exact ⟨Or.inl (List.mem_cons_self _ _), h⟩
  have hsub : Bs ⊆ A.erase nodeId := by
    intro x hx
    rw [hB] at hx
    rw [Finset.mem_erase, hA]
    simp only [Finset.mem_sdiff, List.toFinset_append, Finset.mem_union,
      List.mem_toFinset, List.mem_cons] at hx ⊢
    obtain ⟨hin, hnvis⟩ := hx
    rw [not_or] at hnvis
    refine ⟨hnvis.1, ?_, hnvis.2⟩
    rcases hin with (hq | hpush) | ht
    · exact Or.inl (Or.inr hq)
    · refine Or.inr ?_
      have h1 : x ∈ connectedTargets aes nodeId := by
        rw [hp] at hpush
        exact List.mem_of_mem_filter hpush
      unfold connectedTargets at h1
      obtain ⟨e, he, hex⟩ := List.mem_map.mp h1
      subst hex
      exact List.mem_map_of_mem Edge.target (List.mem_of_mem_filter he)
    · exact Or.inr ht
  have hcard : Bs.card < A.card :=
    lt_of_le_of_lt (Finset.card_le_card hsub)
      (Finset.card_erase_lt_of_mem hnA)
  have hmul : (aes.length + 2) * Bs.card + (aes.length + 2) ≤
      (aes.length + 2) * A.card := by
    have h1 : Bs.card + 1 ≤ A.card := hcard
    calc (aes.length + 2) * Bs.card + (aes.length + 2)
        = (aes.length + 2) * (Bs.card + 1) := by ring
      _ ≤ (aes.length + 2) * A.card := Nat.mul_le_mul_left _ h1
  simp only [List.length_append, List.length_cons]
  omega

theorem bfsAux_fuel (aes : List Edge) :
    ∀ f₁ f₂ queue visited, bfsMeasure aes queue visited ≤ f₁ →
      bfsMeasure aes queue visited ≤ f₂ →
      bfsAux aes f₁ queue visited = bfsAux aes f₂ queue visited := by
  intro f₁
  induction f₁ with
  | zero =>
      intro f₂ queue visited h₁ _
      have hq : queue = [] := by
        have : queue.length = 0 := by
          unfold bfsMeasure at h₁
          omega
        exact List.eq_nil_of_length_eq_zero this
      subst hq
      cases f₂ <;> rfl
  | succ n ih =>
      intro f₂ queue visited h₁ h₂
      match f₂ with
      | 0 =>
          have hq : queue = [] := by
            have : queue.length = 0 := by
              unfold bfsMeasure at h₂
              omega
            exact List.eq_nil_of_length_eq_zero this
          subst hq
          rfl
      | m + 1 =>
          match queue with
          | [] => rfl
          | nodeId :: queue' =>
              simp only [bfsAux]
              by_cases hv : nodeId ∈ visited
              · rw [if_pos hv, if_pos hv]
                have hd := bfsMeasure_pop aes nodeId queue' visited
                exact ih m queue' visited (by omega) (by omega)
              · rw [if_neg hv, if_neg hv]
                have hd := bfsMeasure_pop_new aes nodeId queue' visited hv
                rw [ih m _ _ (by omega) (by omega)]

theorem bfsAux_nodup (aes : List Edge) :
    ∀ fuel queue visited, (bfsAux aes fuel queue visited).Nodup ∧
      ∀ x ∈ bfsAux aes fuel queue visited, x ∉ visited := by
  intro fuel
  induction fuel with
  | zero => intro queue visited; exact ⟨List.nodup_nil, by simp [bfsAux]⟩
  | succ n ih =>
      intro queue visited
      match queue with
      | [] => exact ⟨List.nodup_nil, by simp [bfsAux]⟩
      | nodeId :: queue' =>
          simp only [bfsAux]
          by_cases hv : nodeId ∈ visited
          · rw [if_pos hv]
            exact ih queue' visited
          · rw [if_neg hv]
            obtain ⟨hnd, hvis⟩ := ih (queue' ++
              (connectedTargets aes nodeId).filter
                (fun t => t ∉ nodeId :: visited)) (nodeId :: visited)
            constructor
            · refine List.Nodup.cons ?_ hnd
              intro hmem
              exact (hvis nodeId hmem) (List.mem_cons_self _ _)
            · intro x hx
              rcases List.mem_cons.mp hx with hx | hx
              · subst hx; exact hv
              · intro hxv
                exact (hvis x hx) (List.mem_cons_of_mem _ hxv)

theorem orderedNodes_ids_sublist (nodes : List Node) :
    ∀ vis : List String, ((orderedNodes nodes vis).map Node.id).Sublist vis := by
  intro vis
  induction vis with
  | nil => simp [orderedNodes]
  | cons v vs ih =>
      unfold orderedNodes
      rw [List.filterMap_cons]
      cases hf : nodes.find? (fun n => n.id = v) with
      | none => exact (ih).cons v
      | some n =>
          dsimp only
          by_cases ht : n.type ≠ NodeType.group
          · rw [if_pos ht]
            dsimp only
            simp only [List.map_cons]
            have hnid : n.id = v := by
              have h1 := List.find?_some hf
              exact of_decide_eq_true h1
            rw [hnid]
            exact (ih).cons₂ v
          · rw [if_neg ht]
            exact (ih).cons v
/-- Concrete cyclic sheet: two prompt nodes connected `A→B→A`, both edges
active. -/
def cycNodes : List Node :=
  [{ id := "A", type := NodeType.prompt, position := ⟨0, 0⟩,
      data := { content := some "A text" } },
   { id := "B", type := NodeType.prompt, position := ⟨0, 1⟩,
      data := { content := some "B text" } }]

def cycEdges : List Edge :=
  [{ id := "e1", source := "A", target := "B",
      data := { active := some true } },
   { id := "e2", source := "B", target := "A",
      data := { active := some true } }]

/-- Claim C3.  The traversal is a total function (it is defined by
fuel-bounded recursion whose `bfsMeasure` fuel is proven sufficient by
`bfsAux_fuel`, so it terminates on every sheet), and the contributing
node list never repeats an id, whatever the seed queue; on the concrete
cycle `A→B→A` both path computations terminate with the expected
values. -/
theorem claim_C3_termination (nodes : List Node) (edges : List Edge)
    (queue : List String) :
    ((orderedNodes nodes
        (bfsVisit (activeEdges edges) queue [])).map Node.id).Nodup
    ∧ copyPathFromNode cycNodes cycEdges "A" = "A text\n\nB text"
    ∧ copyAllConnected cycNodes cycEdges = "" := by
  refine ⟨?_, by decide, by decide⟩
  have hvis : (bfsVisit (activeEdges edges) queue []).Nodup :=
    (bfsAux_nodup (activeEdges edges) _ queue []).1
  exact List.Nodup.sublist
    (orderedNodes_ids_sublist nodes (bfsVisit (activeEdges edges) queue []))
    hvis

theorem rootsOf_eq_rootsSpec (nodes : List Node) (aes : List Edge) :
    rootsOf nodes aes = rootsSpec nodes aes := by
  unfold rootsOf rootsSpec
  apply List.filter_congr
  intro n _
  simp only [decide_eq_decide]
  simp [List.mem_map]

theorem bfsVisit_nil (aes : List Edge) (visited : List String) :
    bfsVisit aes [] visited = [] := by
  unfold bfsVisit
  cases bfsMeasure aes [] visited <;> rfl

theorem rootsOf_no_active (nodes : List Node) : rootsOf nodes [] = [] := by
  unfold rootsOf
  induction nodes with
  | nil => rfl
  | cons n ns ih => simp [ih]

theorem copyAllConnected_eq_specTrim (nodes : List Node)
    (edges : List Edge) :
    copyAllConnected nodes edges = copyAllConnectedSpecTrim nodes edges := by
  unfold copyAllConnected copyAllConnectedSpecTrim
  rw [rootsOf_eq_rootsSpec]
  by_cases h : (rootsSpec nodes (activeEdges edges)).isEmpty ∧
      (activeEdges edges).isEmpty
  · rw [if_pos h]
    have hr : rootsSpec nodes (activeEdges edges) = [] :=
      List.isEmpty_iff.mp h.1
    rw [hr]
    rw [show (([] : List Node).map Node.id) = [] from rfl, bfsVisit_nil]
    rfl
  · rw [if_neg h]

/-- Claim C2, amended: the filter keeps the non-blank (not the non-empty)
contributions.  `copyAllConnected` equals the claim's pipeline with the
trim-based filter; its seed roots are exactly the spec's root nodes; the
`Hello`/`World` scenario produces `"Hello\n\nWorld"`; and with no active
edges the result is empty. -/
theorem claim_C2_activePathText (nodes : List Node) (edges : List Edge) :
    copyAllConnected nodes edges = copyAllConnectedSpecTrim nodes edges
    ∧ (∀ n : Node, n ∈ rootsOf nodes (activeEdges edges) ↔
        n ∈ nodes ∧ n.type ≠ NodeType.group ∧
        (∃ e ∈ activeEdges edges, e.source = n.id) ∧
        ¬∃ e ∈ activeEdges edges, e.target = n.id)
    ∧ copyAllConnected
        [{ id := "A", type := NodeType.prompt, position := ⟨0, 0⟩,
            data := { content := some "Hello" } },
         { id := "B", type := NodeType.prompt, position := ⟨0, 1⟩,
            data := { content := some "World" } }]
        [{ id := "e1", source := "A", target := "B",
            data := { active := some true } }] = "Hello\n\nWorld"
    ∧ (activeEdges edges = [] → copyAllConnected nodes edges = "") := by
  refine ⟨copyAllConnected_eq_specTrim nodes edges, ?_, by decide, ?_⟩
  · intro n
    rw [rootsOf_eq_rootsSpec]
    unfold rootsSpec
    rw [List.mem_filter]
    constructor
    · intro ⟨h1, h2⟩
      exact ⟨h1, of_decide_eq_true h2⟩
    · intro ⟨h1, h2⟩
      exact ⟨h1, decide_eq_true h2⟩
  · intro h
    unfold copyAllConnected
    rw [h, rootsOf_no_active]
    rfl

/-- A sheet whose only edge is explicitly inactive. -/
def inactiveEdges : List Edge :=
  [{ id := "e1", source := "A", target := "B",
      data := { active := some false } }]

/-- Witness for C2: the no-active-edges case evaluated on a sheet whose
only edge is explicitly inactive. -/
theorem claim_C2_activePathText_witness :
    activeEdges inactiveEdges = [] ∧
    copyAllConnected cycNodes inactiveEdges = "" :=
  ⟨by decide,
   (claim_C2_activePathText cycNodes inactiveEdges).2.2.2 (by decide)⟩

/-- Concrete sheet refuting the literal "non-empty" filter of C2: node
`A` contributes a single space (non-empty but blank), node `B`
contributes `"World"`. -/
def blankNodes : List Node :=
  [{ id := "A", type := NodeType.prompt, position := ⟨0, 0⟩,
      data := { content := some " " } },
   { id := "B", type := NodeType.prompt, position := ⟨0, 1⟩,
      data := { content := some "World" } }]

def blankEdges : List Edge :=
  [{ id := "e1", source := "A", target := "B",
      data := { active := some true } }]

/-- Counterexample for C2 as stated: the code joins `"World"` alone,
while joining the non-empty contributions in visitation order would give
`" \n\nWorld"`. -/
theorem claim_C2_counterexample :
    copyAllConnected blankNodes blankEdges = "World"
    ∧ copyAllConnectedSpecNonempty blankNodes blankEdges = " \n\nWorld"
    ∧ copyAllConnected blankNodes blankEdges ≠
        copyAllConnectedSpecNonempty blankNodes blankEdges := by
  refine ⟨by decide, by decide, ?_⟩
  intro h
  rw [show copyAllConnected blankNodes blankEdges = "World" from by decide,
    show copyAllConnectedSpecNonempty blankNodes blankEdges = " \n\nWorld"
      from by decide] at h
  exact absurd h (by decide)
/-! ## Cascade delete (`deleteNode`) and the attached-image sync effect -/

/-- The `setNodes` updater of `deleteNode`: drop the node, convert the
deleted node's children to absolute coordinates and clear their
`parentNode`.  (The source also strips the React-Flow-internal `extent`
and `hidden` keys, which are not part of the data model.) -/
def deleteNodeNodes (nodes : List Node) (nodeId : String) : List Node :=
  match nodes.find? (fun n => n.id = nodeId) with
  | none => nodes.filter (fun n => n.id ≠ nodeId)
  | some nodeToDelete =>
      (nodes.filter (fun n => n.id ≠ nodeId)).map (fun n =>
        if n.parentNode = some nodeId then
          { n with parentNode := none,
                   position := ⟨nodeToDelete.position.x + n.position.x,
                                nodeToDelete.position.y + n.position.y⟩ }
        else n)

/-- The `setEdges` updater of `deleteNode`: drop every edge whose source
or target is the deleted id. -/
def deleteNodeEdges (edges : List Edge) (nodeId : String) : List Edge :=
  edges.filter (fun e => e.source ≠ nodeId ∧ e.target ≠ nodeId)

/-- Claim C4.  After `deleteNode(id)` with `id` present: no remaining
edge touches `id`; every child of the deleted node reappears with
`parentNode` cleared and position `parent.position + child.position`
(taken before deletion); nodes that were neither the deleted node nor
its children, and edges not touching `id`, are unchanged, and no edge
was added. -/
theorem claim_C4_deleteNode (nodes : List Node) (edges : List Edge)
    (nodeId : String) (p : Node)
    (hfind : nodes.find? (fun n => n.id = nodeId) = some p) :
    (∀ e ∈ deleteNodeEdges edges nodeId,
        e.source ≠ nodeId ∧ e.target ≠ nodeId)
    ∧ (∀ n ∈ nodes, n.id ≠ nodeId → n.parentNode = some nodeId →
        { n with parentNode := none,
                 position := ⟨p.position.x + n.position.x,
                              p.position.y + n.position.y⟩ } ∈
          deleteNodeNodes nodes nodeId)
    ∧ (∀ n ∈ nodes, n.id ≠ nodeId → n.parentNode ≠ some nodeId →
        n ∈ deleteNodeNodes nodes nodeId)
    ∧ (∀ e ∈ edges, e.source ≠ nodeId → e.target ≠ nodeId →
        e ∈ deleteNodeEdges edges nodeId)
    ∧ (∀ e ∈ deleteNodeEdges edges nodeId, e ∈ edges) := by
  refine ⟨?_, ?_, ?_, ?_, ?_⟩
  · intro e he
    have := List.of_mem_filter he
    exact of_decide_eq_true this
  · intro n hn hid hpar
    unfold deleteNodeNodes
    rw [hfind]
    refine List.mem_map.mpr ⟨n, ?_, ?_⟩
    · exact List.mem_filter.mpr ⟨hn, decide_eq_true hid⟩
    · rw [if_pos hpar]
  · intro n hn hid hpar
    unfold deleteNodeNodes
    rw [hfind]
    refine List.mem_map.mpr ⟨n, ?_, ?_⟩
    · exact List.mem_filter.mpr ⟨hn, decide_eq_true hid⟩
    · rw [if_neg hpar]
  · intro e he hs ht
    exact List.mem_filter.mpr ⟨he, decide_eq_true ⟨hs, ht⟩⟩
  · intro e he
    exact List.mem_of_mem_filter he

/-- Concrete nodes for the C4 witness: a group `G` at (10, 20) with one
child `C` at relative (3, 4) and one outside node `X`. -/
def c4G : Node := { id := "G", type := NodeType.group, position := ⟨10, 20⟩ }

def c4C : Node :=
  { id := "C", type := NodeType.prompt, position := ⟨3, 4⟩,
    parentNode := some "G" }

def c4X : Node := { id := "X", type := NodeType.prompt, position := ⟨7, 8⟩ }

def c4Nodes : List Node := [c4G, c4C, c4X]

def c4Edges : List Edge :=
  [{ id := "e1", source := "G", target := "X" },
   { id := "e2", source := "X", target := "X" }]

/-- Witness for C4 at the concrete sheet: the ex-child keeps no parent
and moves to the parent-plus-child position, `X` survives unchanged,
and the self-edge on `X` is kept. -/
theorem claim_C4_deleteNode_witness :
    (∀ e ∈ deleteNodeEdges c4Edges "G",
        e.source ≠ "G" ∧ e.target ≠ "G")
    ∧ ({ c4C with
          parentNode := none,
          position := ⟨c4G.position.x + c4C.position.x,
                       c4G.position.y + c4C.position.y⟩ } ∈
        deleteNodeNodes c4Nodes "G")
    ∧ (c4X ∈ deleteNodeNodes c4Nodes "G")
    ∧ ({ id := "e2", source := "X", target := "X" } ∈
        deleteNodeEdges c4Edges "G") :=
  ⟨(claim_C4_deleteNode c4Nodes c4Edges "G" c4G (by decide)).1,
   (claim_C4_deleteNode c4Nodes c4Edges "G" c4G (by decide)).2.1
      c4C (by decide) (by decide) (by decide),
   (claim_C4_deleteNode c4Nodes c4Edges "G" c4G (by decide)).2.2.1
      c4X (by decide) (by decide) (by decide),
   (claim_C4_deleteNode c4Nodes c4Edges "G" c4G (by decide)).2.2.2.1
      { id := "e2", source := "X", target := "X" } (by decide) (by decide)
      (by decide)⟩
/-- JS truthiness of `node.data?.attachedTo`: present and non-empty. -/
def attachedTruthy (n : Node) : Prop :=
  match n.data.attachedTo with
  | some s => s ≠ ""
  | none => False

instance (n : Node) : Decidable (attachedTruthy n) := by
  unfold attachedTruthy
  match n.data.attachedTo with
  | some s => exact inferInstanceAs (Decidable (s ≠ ""))
  | none => exact inferInstanceAs (Decidable False)

/-- The `calculateAnchorPosition` helper of `imageHandler.js`:
`style?.width || 280`, `style?.height || 180`, the anchor table, and the
`|| anchors['top-right']` fallback. -/
def calculateAnchorPosition (parentNode : Node)
    (anchorPoint : Option String) : Pos :=
  let width : ℚ := match parentNode.style with
    | some st => if st.width = 0 then 280 else st.width
    | none => 280
  let height : ℚ := match parentNode.style with
    | some st => if st.height = 0 then 180 else st.height
    | none => 180
  let pos := parentNode.position
  match anchorPoint with
  | some "top-left" => ⟨pos.x - 100, pos.y - 100⟩
  | some "top-right" => ⟨pos.x + width + 20, pos.y⟩
  | some "bottom-left" => ⟨pos.x - 100, pos.y + height + 20⟩
  | some "bottom-right" => ⟨pos.x + width + 20, pos.y + height⟩
  | some "center" => ⟨pos.x + width / 2, pos.y + height / 2⟩
  | _ => ⟨pos.x + width + 20, pos.y⟩

/-- The attached-image sync effect of the `Flow` component: images whose
`attachedTo` no longer resolves are detached; resolved ones are snapped
to their anchor position when they drifted more than one unit. -/
def syncAttachedImages (nodes : List Node) : List Node :=
  if (nodes.filter (fun n =>
      n.type = NodeType.image ∧ attachedTruthy n)).isEmpty then nodes
  else
    nodes.map (fun node =>
      if node.type = NodeType.image ∧ attachedTruthy node then
        match nodes.find? (fun p => some p.id = node.data.attachedTo) with
        | none => { node with data := { node.data with attachedTo := none } }
        | some parent =>
            let anchorPos :=
              calculateAnchorPosition parent node.data.anchorPoint
            let newX := anchorPos.x + ((node.data.offset.map Pos.x).getD 0)
            let newY := anchorPos.y + ((node.data.offset.map Pos.y).getD 0)
            if 1 < |node.position.x - newX| ∨ 1 < |node.position.y - newY|
            then { node with position := ⟨newX, newY⟩ }
            else node
      else node)

theorem deleteNodeNodes_id_ne (nodes : List Node) (nodeId : String) :
    ∀ n ∈ deleteNodeNodes nodes nodeId, n.id ≠ nodeId := by
  intro n hn
  unfold deleteNodeNodes at hn
  cases hf : nodes.find? (fun n => n.id = nodeId) with
  | none =>
      rw [hf] at hn
      have hn' : n ∈ nodes.filter (fun x => x.id ≠ nodeId) := hn
      have h1 := List.of_mem_filter hn'
      exact of_decide_eq_true h1
  | some p =>
      rw [hf] at hn
      have hn' : n ∈ (nodes.filter (fun x => x.id ≠ nodeId)).map (fun n =>
          if n.parentNode = some nodeId then
            { n with parentNode := none,
                     position := ⟨p.position.x + n.position.x,
                                  p.position.y + n.position.y⟩ }
          else n) := hn
      obtain ⟨m, hm, hmap⟩ := List.mem_map.mp hn'
      have hmid : m.id ≠ nodeId := by
        have h1 := List.of_mem_filter hm
        exact of_decide_eq_true h1
      subst hmap
      by_cases hpar : m.parentNode = some nodeId
      · rw [if_pos hpar]
        exact hmid
      · rw [if_neg hpar]
        exact hmid

/-- Claim C8, amended.  `deleteNode(id)` itself leaves `attachedTo`
untouched; it is the attached-image sync effect, which runs after any
node change, that detaches images whose `attachedTo` no longer resolves.
After `deleteNode(id)` followed by the sync effect, no Image node is
still attached to `id` (for a non-empty id, the only kind a node can
carry). -/
theorem claim_C8_syncDetaches (nodes : List Node) (nodeId : String)
    (hid : nodeId ≠ "") :
    ∀ n ∈ syncAttachedImages (deleteNodeNodes nodes nodeId),
      n.type = NodeType.image → n.data.attachedTo ≠ some nodeId := by
  intro n hn htype hat
  unfold syncAttachedImages at hn
  by_cases hempty : ((deleteNodeNodes nodes nodeId).filter (fun n =>
      n.type = NodeType.image ∧ attachedTruthy n)).isEmpty
  · rw [if_pos hempty] at hn
    have htr : attachedTruthy n := by
      unfold attachedTruthy
      rw [hat]
      exact hid
    have hmem : n ∈ (deleteNodeNodes nodes nodeId).filter (fun n =>
        n.type = NodeType.image ∧ attachedTruthy n) :=
      List.mem_filter.mpr ⟨hn, decide_eq_true ⟨htype, htr⟩⟩
    rw [List.isEmpty_iff.mp hempty] at hmem
    exact absurd hmem (List.not_mem_nil n)
  · rw [if_neg hempty] at hn
    obtain ⟨m, hm, hf⟩ := List.mem_map.mp hn
    by_cases hcond : m.type = NodeType.image ∧ attachedTruthy m
    · rw [if_pos hcond] at hf
      cases hfind : (deleteNodeNodes nodes nodeId).find?
          (fun p => some p.id = m.data.attachedTo) with
      | none =>
          rw [hfind] at hf
          subst hf
          simp at hat
      | some parent =>
          rw [hfind] at hf
          have hpid : parent.id ≠ nodeId :=
            deleteNodeNodes_id_ne nodes nodeId parent
              (List.mem_of_find?_eq_some hfind)
          have hpeq : some parent.id = m.data.attachedTo := by
            have h1 := List.find?_some hfind
            exact of_decide_eq_true h1
          have hmat : m.data.attachedTo ≠ some nodeId := by
            rw [← hpeq]
            intro hcontra
            injection hcontra with h1
            exact hpid h1
          apply hmat
          rw [← hat]
          -- both kept branches preserve attachedTo
          dsimp only at hf
          split at hf
          · subst hf; rfl
          · subst hf; rfl
    · rw [if_neg hcond] at hf
      subst hf
      apply hcond
      refine ⟨htype, ?_⟩
      unfold attachedTruthy
      rw [hat]
      exact hid
/-- Concrete sheet for C8: prompt `P` and an image attached to it. -/
def c8Image : Node :=
  { id := "I", type := NodeType.image, position := ⟨5, 5⟩,
    data := { attachedTo := some "P" } }

def c8Nodes : List Node :=
  [{ id := "P", type := NodeType.prompt, position := ⟨0, 0⟩ },
   c8Image]

/-- Counterexample for C8 as stated: `deleteNode("P")` leaves the image
node with `attachedTo` still equal to `"P"`; no clearing happens as part
of the delete cascade itself. -/
theorem claim_C8_counterexample :
    deleteNodeNodes c8Nodes "P" = [c8Image]
    ∧ c8Image.data.attachedTo = some "P" := by
  exact ⟨by decide, rfl⟩

/-- Witness for C8: after deleting `P` and running the sync effect, no
image is attached to `"P"` any more. -/
theorem claim_C8_syncDetaches_witness :
    ("P" : String) ≠ ""
    ∧ ∀ n ∈ syncAttachedImages (deleteNodeNodes c8Nodes "P"),
        n.type = NodeType.image → n.data.attachedTo ≠ some "P" :=
  ⟨by decide, claim_C8_syncDetaches c8Nodes "P" (by decide)⟩
/-! ## Default-active edges (`CustomEdge`, the copy filters, `onConnect`) -/

/-- `const isActive = data?.active !== false` of `CustomEdge.jsx`. -/
def customEdgeIsActive (e : Edge) : Bool := !(e.data.active == some false)
/-- React Flow's edge id for a connection with no handles:
`reactflow__edge-<source>-<target>`. -/
def rfEdgeId (src tgt : String) : String :=
  "reactflow__edge-" ++ src ++ "-" ++ tgt

/-- Modelled from the spec and React Flow's documented `addEdge` helper
(an external library): appends the new edge unless an edge with the same
source and target already exists (then it is a no-op). -/
def addEdge (e : Edge) (edges : List Edge) : List Edge :=
  if edges.any (fun x => x.source = e.source ∧ x.target = e.target) then
    edges
  else edges ++ [e]

/-- The color of a fresh edge: `sourceNode?.data?.color || "purple"`. -/
def edgeColorOf (nodes : List Node) (src : String) : String :=
  match nodes.find? (fun n => n.id = src) with
  | some n =>
      match n.data.color with
      | some c => if c = "" then "purple" else c
      | none => "purple"
  | none => "purple"

/-- The edge object built by `onConnect`: custom type, the source node's
color, and no `active` key at all. -/
def freshEdge (nodes : List Node) (src tgt : String) : Edge :=
  { id := rfEdgeId src tgt, source := src, target := tgt,
    data := { color := some (edgeColorOf nodes src) } }

/-- The `onConnect` callback. -/
def onConnect (nodes : List Node) (edges : List Edge)
    (src tgt : String) : List Edge :=
  addEdge (freshEdge nodes src tgt) edges

/-- Two connections to the same target `C`, made on an empty edge list. -/
def c10Two : List Edge :=
  onConnect [] (onConnect [] [] "A" "C") "B" "C"

/-- Claim C10.  An edge with no `active` key is treated as active by
every consumer: `CustomEdge`'s `isActive`, and the active-edge filter
shared by `copyAllConnected` and `copyPathFromNode`, keep exactly the
edges whose `active` is not literally `false`; `onConnect` creates its
edge without an `active` key, so two fresh edges sharing a target are
both treated as active until `setActive` runs on one of them. -/
theorem claim_C10_defaultActive (nodes : List Node) (edges : List Edge)
    (e : Edge) (src tgt : String)
    (hdup : ∀ x ∈ edges, ¬(x.source = src ∧ x.target = tgt)) :
    (customEdgeIsActive e = true ↔ e.data.active ≠ some false)
    ∧ (e ∈ activeEdges edges ↔ e ∈ edges ∧ e.data.active ≠ some false)
    ∧ onConnect nodes edges src tgt = edges ++ [freshEdge nodes src tgt]
    ∧ (freshEdge nodes src tgt).data.active = none
    ∧ customEdgeIsActive (freshEdge nodes src tgt) = true
    ∧ activeEdges c10Two = c10Two
    ∧ (setActive c10Two (rfEdgeId "A" "C")).map
        (fun x => x.data.active) = [some true, some false] := by
  refine ⟨?_, ?_, ?_, rfl, rfl, by decide, by decide⟩
  · unfold customEdgeIsActive
    cases e.data.active with
    | none => simp
    | some b => cases b <;> simp
  · unfold activeEdges
    rw [List.mem_filter]
    constructor
    · intro ⟨h1, h2⟩
      exact ⟨h1, of_decide_eq_true h2⟩
    · intro ⟨h1, h2⟩
      exact ⟨h1, decide_eq_true h2⟩
  · unfold onConnect addEdge
    rw [if_neg]
    intro hany
    obtain ⟨x, hx, hp⟩ := List.any_eq_true.mp hany
    exact hdup x hx (of_decide_eq_true hp)

/-- Witness for C10 on the concrete two-edge scenario, with the
duplicate-check hypothesis discharged on the empty edge list. -/
theorem claim_C10_defaultActive_witness :
    onConnect [] [] "A" "C" = [] ++ [freshEdge [] "A" "C"]
    ∧ activeEdges c10Two = c10Two
    ∧ (setActive c10Two (rfEdgeId "A" "C")).map
        (fun x => x.data.active) = [some true, some false] :=
  ⟨(claim_C10_defaultActive [] [] (freshEdge [] "A" "C") "A" "C"
      (by decide)).2.2.1,
   (claim_C10_defaultActive [] [] (freshEdge [] "A" "C") "A" "C"
      (by decide)).2.2.2.2.2.1,
   (claim_C10_defaultActive [] [] (freshEdge [] "A" "C") "A" "C"
      (by decide)).2.2.2.2.2.2⟩
/-! ## Edge routing (`getSmartPath` in `CustomEdge.jsx`)

The JS function returns an SVG path string; the embedding returns the
structured curve data the string is printed from (the `M`/`Q`/`C`
commands with their coordinates).  JS numbers are modelled as reals. -/

/-- React Flow's `Position` enum. -/
inductive RFPosition where
  | top
  | right
  | bottom
  | left
deriving DecidableEq, Repr

/-- The four path shapes `getSmartPath` can produce. -/
inductive SmartPath where
  | quadClose (sx sy cx cy tx ty : ℝ)
  | stepAround (sx sy cp1x cp1y cp2x cp2y midx midy cp3x cp3y cp4x cp4y
      tx ty : ℝ)
  | sameLevelArc (sx sy cx cy tx ty : ℝ)
  | forwardCubic (sx sy c1x c1y c2x c2y tx ty : ℝ)

open scoped Classical in
/-- The routing function, one branch per source comment: very-close
quadratic, backwards step-around, same-level arc, forward cubic. -/
noncomputable def getSmartPath (sourceX sourceY targetX targetY : ℝ)
    (sourcePosition targetPosition : RFPosition) : SmartPath :=
  let deltaX := targetX - sourceX
  let deltaY := targetY - sourceY
  let distance := Real.sqrt (deltaX * deltaX + deltaY * deltaY)
  if distance < 100 then
    let midX := (sourceX + targetX) / 2
    let midY := (sourceY + targetY) / 2
    let offset := max 30 (distance * 0.3)
    let curveX := midX + (if deltaX > 0 then -offset else offset)
    SmartPath.quadClose sourceX sourceY curveX midY targetX targetY
  else if sourcePosition = RFPosition.bottom ∧
      targetPosition = RFPosition.top ∧ deltaY < 0 then
    let absDistance := |deltaY|
    let horizontalOffset := max 80 (min 150 (absDistance * 0.5))
    let verticalPadding := max 40 (absDistance * 0.2)
    let sideX := if deltaX ≥ 0 then
        max sourceX targetX + horizontalOffset
      else min sourceX targetX - horizontalOffset
    SmartPath.stepAround sourceX sourceY
      sourceX (sourceY + verticalPadding)
      sideX (sourceY + verticalPadding)
      sideX ((sourceY + targetY) / 2)
      sideX (targetY - verticalPadding)
      targetX (targetY - verticalPadding)
      targetX targetY
  else if |deltaY| < 50 then
    let arcHeight := max 60 (|deltaX| * 0.3)
    let midX := (sourceX + targetX) / 2
    let arcY := max sourceY targetY + arcHeight
    SmartPath.sameLevelArc sourceX sourceY midX arcY targetX targetY
  else
    let curvature := min (distance * 0.25) 60
    SmartPath.forwardCubic sourceX sourceY
      sourceX (sourceY + curvature)
      targetX (targetY - curvature)
      targetX targetY

/-- The control point the claim describes for the very-close case: the
midpoint shifted perpendicular to the source-target line by
`max(30, dist*0.3)`, on the side given by `sign`. -/
noncomputable def perpShiftControl (sx sy tx ty sign : ℝ) : ℝ × ℝ :=
  let dx := tx - sx
  let dy := ty - sy
  let dist := Real.sqrt (dx * dx + dy * dy)
  let offset := max 30 (dist * 0.3)
  ((sx + tx) / 2 + sign * offset * (-dy / dist),
   (sy + ty) / 2 + sign * offset * (dx / dist))

theorem sqrt_sixty : Real.sqrt ((60 - 0) * (60 - 0) + (0 - 0) * (0 - 0)) = 60 := by
  rw [show ((60 - 0) * (60 - 0) + (0 - 0) * (0 - 0) : ℝ) = 60 ^ 2 by norm_num]
  rw [Real.sqrt_sq (by norm_num : (0:ℝ) ≤ 60)]

/-- Counterexample for C9 as stated: for the horizontal pair
`(0,0) → (60,0)` (distance 60 < 100) the code's control point is
`(0, 0)` — the midpoint shifted horizontally — while a perpendicular
shift of the midpoint would give `(30, 30)` or `(30, -30)`. -/
theorem claim_C9_counterexample :
    getSmartPath 0 0 60 0 RFPosition.bottom RFPosition.top =
      SmartPath.quadClose 0 0 0 0 60 0
    ∧ perpShiftControl 0 0 60 0 1 ≠ ((0 : ℝ), (0 : ℝ))
    ∧ perpShiftControl 0 0 60 0 (-1) ≠ ((0 : ℝ), (0 : ℝ)) := by
  refine ⟨?_, ?_, ?_⟩
  · unfold getSmartPath
    rw [if_pos (by rw [sqrt_sixty]; norm_num)]
    have hoff : max (30:ℝ) (Real.sqrt ((60 - 0) * (60 - 0) +
        (0 - 0) * (0 - 0)) * 0.3) = 30 := by
      rw [sqrt_sixty]
      norm_num
    dsimp only
    rw [if_pos (by norm_num : (60:ℝ) - 0 > 0)]
    rw [hoff]
    norm_num [SmartPath.quadClose.injEq]
  · unfold perpShiftControl
    intro h
    rw [Prod.mk.injEq] at h
    have h2 := h.2
    rw [sqrt_sixty] at h2
    norm_num at h2
  · unfold perpShiftControl
    intro h
    rw [Prod.mk.injEq] at h
    have h2 := h.2
    rw [sqrt_sixty] at h2
    norm_num at h2

/-- Claim C9, amended.  Whenever the endpoint distance is below 100 the
router returns the very-close quadratic (this branch wins over the
backwards and same-level cases), whose single control point is the
midpoint shifted HORIZONTALLY — not perpendicular to the source-target
line — by `max(30, dist*0.3)`, to the left when `dx > 0` and to the
right otherwise, with the midpoint's own y-coordinate. -/
theorem claim_C9_veryClose (sx sy tx ty : ℝ) (sp tp : RFPosition)
    (hclose : Real.sqrt ((tx - sx) * (tx - sx) + (ty - sy) * (ty - sy))
      < 100) :
    getSmartPath sx sy tx ty sp tp =
      SmartPath.quadClose sx sy
        ((sx + tx) / 2 + (if tx - sx > 0 then
            -(max 30 (Real.sqrt ((tx - sx) * (tx - sx) +
              (ty - sy) * (ty - sy)) * 0.3))
          else max 30 (Real.sqrt ((tx - sx) * (tx - sx) +
              (ty - sy) * (ty - sy)) * 0.3)))
        ((sy + ty) / 2) tx ty := by
  unfold getSmartPath
  rw [if_pos hclose]

theorem sqrt_fifty : Real.sqrt ((30 - 0) * (30 - 0) + (40 - 0) * (40 - 0)) = 50 := by
  rw [show ((30 - 0) * (30 - 0) + (40 - 0) * (40 - 0) : ℝ) = 50 ^ 2 by norm_num]
  rw [Real.sqrt_sq (by norm_num : (0:ℝ) ≤ 50)]

/-- Witness for C9 at the 3-4-5 pair `(0,0) → (30,40)` (distance 50). -/
theorem claim_C9_veryClose_witness :
    Real.sqrt ((30 - 0) * (30 - 0) + (40 - 0) * (40 - 0)) < 100
    ∧ getSmartPath 0 0 30 40 RFPosition.bottom RFPosition.top =
      SmartPath.quadClose 0 0
        ((0 + 30) / 2 + (if (30:ℝ) - 0 > 0 then
            -(max 30 (Real.sqrt ((30 - 0) * (30 - 0) +
              (40 - 0) * (40 - 0)) * 0.3))
          else max 30 (Real.sqrt ((30 - 0) * (30 - 0) +
              (40 - 0) * (40 - 0)) * 0.3)))
        ((0 + 40) / 2) 30 40 :=
  ⟨by rw [sqrt_fifty]; norm_num,
   claim_C9_veryClose 0 0 30 40 RFPosition.bottom RFPosition.top
     (by rw [sqrt_fifty]; norm_num)⟩
/-! ## Id generation (`addNode`, `duplicateNode`, `onConnect`)

Node ids come from `node-${Date.now()}`, duplicated-edge ids from
`edge-${Date.now()}-${Math.random().toString(36).substr(2, 9)}`, and
connection ids from React Flow's `reactflow__edge-<source>-<target>`.
The timestamp is an explicit operation parameter; the random suffixes
are an explicit per-operation supply. -/

theorem digitChar_ne_dash : ∀ m : Nat, m < 10 → Nat.digitChar m ≠ '-' := by
  decide

theorem toDigitsCore_chars (f : Nat) :
    ∀ n acc c, c ∈ Nat.toDigitsCore 10 f n acc →
      c ∈ acc ∨ ∃ m : Nat, m < 10 ∧ c = Nat.digitChar m := by
  induction f with
  | zero =>
      intro n acc c hc
      exact Or.inl hc
  | succ f ih =>
      intro n acc c hc
      simp only [Nat.toDigitsCore] at hc
      by_cases hz : n / 10 = 0
      · rw [if_pos hz] at hc
        rcases List.mem_cons.mp hc with hc | hc
        · exact Or.inr ⟨n % 10, Nat.mod_lt n (by omega), hc⟩
        · exact Or.inl hc
      · rw [if_neg hz] at hc
        rcases ih (n / 10) (Nat.digitChar (n % 10) :: acc) c hc with hc' | hc'
        · rcases List.mem_cons.mp hc' with hc'' | hc''
          · exact Or.inr ⟨n % 10, Nat.mod_lt n (by omega), hc''⟩
          · exact Or.inl hc''
        · exact Or.inr hc'

/-- The decimal rendering of a natural number never contains `'-'`. -/
theorem repr_no_dash (n : Nat) : '-' ∉ (Nat.repr n).data := by
  intro hmem
  have h1 : '-' ∈ Nat.toDigitsCore 10 (n + 1) n [] := hmem
  rcases toDigitsCore_chars (n + 1) n [] '-' h1 with h | ⟨m, hm, hd⟩
  · exact absurd h (List.not_mem_nil _)
  · exact digitChar_ne_dash m hm hd.symm
/-- Id of a node created at timestamp `t`: `node-${Date.now()}`. -/
def nodeIdAt (t : Nat) : String := "node-" ++ Nat.repr t

/-- Id of a duplicated edge: `edge-${Date.now()}-${randomSuffix}`. -/
def dupEdgeIdAt (t : Nat) (r : String) : String :=
  "edge-" ++ Nat.repr t ++ "-" ++ r

theorem nodeIdAt_head (t : Nat) : (nodeIdAt t).data.head? = some 'n' := by
  unfold nodeIdAt
  rw [String.data_append]
  rfl

theorem dupEdgeIdAt_head (t : Nat) (r : String) :
    (dupEdgeIdAt t r).data.head? = some 'e' := by
  unfold dupEdgeIdAt
  rw [String.data_append, String.data_append, String.data_append]
  rfl

theorem rfEdgeId_head (s u : String) :
    (rfEdgeId s u).data.head? = some 'r' := by
  unfold rfEdgeId
  rw [String.data_append, String.data_append, String.data_append]
  rfl

theorem nodeIdAt_ne_dupEdgeIdAt (t t' : Nat) (r : String) :
    nodeIdAt t ≠ dupEdgeIdAt t' r := by
  intro h
  have h1 : (nodeIdAt t).data.head? = (dupEdgeIdAt t' r).data.head? :=
    congrArg (fun s : String => s.data.head?) h
  rw [nodeIdAt_head, dupEdgeIdAt_head] at h1
  exact absurd h1 (by decide)

theorem nodeIdAt_ne_rfEdgeId (t : Nat) (s u : String) :
    nodeIdAt t ≠ rfEdgeId s u := by
  intro h
  have h1 : (nodeIdAt t).data.head? = (rfEdgeId s u).data.head? :=
    congrArg (fun x : String => x.data.head?) h
  rw [nodeIdAt_head, rfEdgeId_head] at h1
  exact absurd h1 (by decide)

theorem dupEdgeIdAt_ne_rfEdgeId (t : Nat) (r s u : String) :
    dupEdgeIdAt t r ≠ rfEdgeId s u := by
  intro h
  have h1 : (dupEdgeIdAt t r).data.head? = (rfEdgeId s u).data.head? :=
    congrArg (fun x : String => x.data.head?) h
  rw [dupEdgeIdAt_head, rfEdgeId_head] at h1
  exact absurd h1 (by decide)

theorem nodeIdAt_inj_repr (t1 t2 : Nat) (h : nodeIdAt t1 = nodeIdAt t2) :
    Nat.repr t1 = Nat.repr t2 := by
  unfold nodeIdAt at h
  have hd := congrArg String.data h
  rw [String.data_append, String.data_append] at hd
  exact String.ext (List.append_cancel_left hd)

theorem lastSeg (pre r : List Char) (hr : '-' ∉ r) :
    (pre ++ '-' :: r).reverse.takeWhile (fun c => !(c == '-')) =
      r.reverse := by
  rw [List.reverse_append, List.reverse_cons, List.append_assoc]
  have h := takeWhile_append_all (p := fun c => !(c == '-'))
    (a := r.reverse) (b := '-') (t := pre.reverse)
    (fun c hc => by
      have hcr : c ∈ r := List.mem_reverse.mp hc
      have : c ≠ '-' := fun hcd => hr (hcd ▸ hcr)
      simp [this])
    (by decide)
  simpa using h.1

/-- Disambiguation of `<anything> ++ "-" ++ <dash-free tail>`. -/
theorem append_dash_inj {a1 a2 r1 r2 : List Char}
    (h1 : '-' ∉ r1) (h2 : '-' ∉ r2)
    (heq : a1 ++ '-' :: r1 = a2 ++ '-' :: r2) : a1 = a2 ∧ r1 = r2 := by
  have hr := congrArg
    (fun l : List Char => l.reverse.takeWhile (fun c => !(c == '-'))) heq
  simp only at hr
  rw [lastSeg a1 r1 h1, lastSeg a2 r2 h2] at hr
  have hr' : r1 = r2 := List.reverse_injective hr
  subst hr'
  exact ⟨List.append_cancel_right heq, rfl⟩

theorem dupEdgeIdAt_data (t : Nat) (r : String) :
    (dupEdgeIdAt t r).data =
      ("edge-".data ++ (Nat.repr t).data) ++ '-' :: r.data := by
  unfold dupEdgeIdAt
  rw [String.data_append, String.data_append, String.data_append]
  rw [List.append_assoc, List.append_assoc, List.append_assoc]
  rfl

theorem dupEdgeIdAt_suffix_inj {t1 t2 : Nat} {r1 r2 : String}
    (h1 : '-' ∉ r1.data) (h2 : '-' ∉ r2.data)
    (heq : dupEdgeIdAt t1 r1 = dupEdgeIdAt t2 r2) : r1 = r2 := by
  have hd := congrArg String.data heq
  rw [dupEdgeIdAt_data, dupEdgeIdAt_data] at hd
  exact String.ext (append_dash_inj h1 h2 hd).2

theorem rfEdgeId_data (s u : String) :
    (rfEdgeId s u).data =
      ("reactflow__edge-".data ++ s.data) ++ '-' :: u.data := by
  unfold rfEdgeId
  rw [String.data_append, String.data_append, String.data_append]
  rw [List.append_assoc, List.append_assoc, List.append_assoc]
  rfl

theorem nodeIdAt_data (t : Nat) :
    (nodeIdAt t).data = "node".data ++ '-' :: (Nat.repr t).data := by
  unfold nodeIdAt
  rw [String.data_append]
  rfl

/-- Injectivity of the React Flow connection id on node-id endpoints. -/
theorem rfEdgeId_inj {t1 u1 t2 u2 : Nat}
    (heq : rfEdgeId (nodeIdAt t1) (nodeIdAt u1) =
      rfEdgeId (nodeIdAt t2) (nodeIdAt u2)) :
    nodeIdAt t1 = nodeIdAt t2 ∧ nodeIdAt u1 = nodeIdAt u2 := by
  have hd := congrArg String.data heq
  rw [rfEdgeId_data, rfEdgeId_data, nodeIdAt_data t1, nodeIdAt_data t2,
    nodeIdAt_data u1, nodeIdAt_data u2] at hd
  have hd' : ("reactflow__edge-".data ++
        ("node".data ++ '-' :: (Nat.repr t1).data) ++ '-' :: "node".data) ++
        '-' :: (Nat.repr u1).data =
      ("reactflow__edge-".data ++
        ("node".data ++ '-' :: (Nat.repr t2).data) ++ '-' :: "node".data) ++
        '-' :: (Nat.repr u2).data := by
    simpa [List.append_assoc] using hd
  have hstep := append_dash_inj (repr_no_dash u1) (repr_no_dash u2) hd'
  have h1 := List.append_cancel_right hstep.1
  have h2 := List.append_cancel_left h1
  have h3 := List.append_cancel_left h2
  have h4 : (Nat.repr t1).data = (Nat.repr t2).data := by
    injection h3
  constructor
  · unfold nodeIdAt
    rw [String.ext h4]
  · unfold nodeIdAt
    rw [String.ext hstep.2]
/-- The id-generating operations of the sheet.  `create` covers
`addNode`/`createTemplateFromBuilder` (id `node-${Date.now()}`); `dup`
is `duplicateNode` with its timestamp, its per-duplicated-edge random
suffix supply and its randomly chosen new color; `connect` is
`onConnect`.  Each `Date.now()` observation is an explicit parameter;
the per-edge `Date.now()` calls inside `duplicateNode`'s edge map are
modelled by the operation's single timestamp (the worst case for
collisions, since distinct timestamps only make ids differ more). -/
inductive GraphOp where
  | create (t : Nat)
  | dup (t : Nat) (suffixes : Nat → String) (origId : String)
      (newColor : String)
  | connect (src tgt : String)

/-- One operation applied to the `(nodes, edges)` state. -/
def applyOp (st : List Node × List Edge) : GraphOp → List Node × List Edge
  | GraphOp.create t =>
      (st.1 ++ [{ id := nodeIdAt t, type := NodeType.prompt,
                  position := ⟨0, 0⟩ }], st.2)
  | GraphOp.dup t suf origId newColor =>
      (match st.1.find? (fun n => n.id = origId) with
        | none => st.1
        | some orig =>
            st.1 ++ [{ orig with
                       id := nodeIdAt t,
                       position := ⟨orig.position.x + 50,
                                    orig.position.y + 50⟩,
                       data := { orig.data with color := some newColor } }],
       st.2 ++ (st.2.filter
          (fun e => e.source = origId ∨ e.target = origId)).enum.map
        (fun pr => { pr.2 with
                     id := dupEdgeIdAt t (suf pr.1),
                     source := if pr.2.source = origId then nodeIdAt t
                       else pr.2.source,
                     target := if pr.2.target = origId then nodeIdAt t
                       else pr.2.target,
                     data := { pr.2.data with color := some newColor } }))
  | GraphOp.connect src tgt =>
      if (st.1.any (fun n => n.id = src)) ∧ (st.1.any (fun n => n.id = tgt))
      then (st.1, addEdge (freshEdge st.1 src tgt) st.2)
      else st

/-- A sequence of operations applied to the empty sheet. -/
def applyOps (ops : List GraphOp) : List Node × List Edge :=
  ops.foldl applyOp ([], [])

/-- The `Date.now()` values an operation consumes for node ids. -/
def opTimes : GraphOp → List Nat
  | GraphOp.create t => [t]
  | GraphOp.dup t _ _ _ => [t]
  | GraphOp.connect _ _ => []

/-- The decimal renderings of all timestamps of a list of operations. -/
def futureReprs (ops : List GraphOp) : List String :=
  ((ops.map opTimes).flatten).map Nat.repr

/-- The string `r` is never drawn as a suffix by the given operations. -/
def NoFutureSuffix (r : String) (ops : List GraphOp) : Prop :=
  ∀ op ∈ ops, ∀ t suf orig c, op = GraphOp.dup t suf orig c →
    ∀ i, suf i ≠ r

/-- Per-operation suffix discipline: suffixes are dash-free and
pairwise distinct within the operation. -/
def SufOk : GraphOp → Prop
  | GraphOp.dup _ suf _ _ =>
      (∀ i, '-' ∉ (suf i).data) ∧ Function.Injective suf
  | _ => True

/-- Two operations never draw a common suffix. -/
def SufDisjoint : GraphOp → GraphOp → Prop
  | GraphOp.dup _ s1 _ _, GraphOp.dup _ s2 _ _ => ∀ i j, s1 i ≠ s2 j
  | _, _ => True

/-- An id of the shape the node generator mints. -/
def NodeIdString (s : String) : Prop := ∃ t, s = nodeIdAt t

/-- Shape invariant for an edge id, relative to the operations still to
come: either a duplicated-edge id whose suffix is dash-free and never
drawn again, or a connection id that agrees with the edge's stored
endpoints, which are node ids. -/
def EdgeIdForm (e : Edge) (rest : List GraphOp) : Prop :=
  (∃ t r, e.id = dupEdgeIdAt t r ∧ '-' ∉ r.data ∧ NoFutureSuffix r rest)
  ∨ (e.id = rfEdgeId e.source e.target ∧ NodeIdString e.source ∧
      NodeIdString e.target)

/-- The reachable-state invariant, relative to the remaining
operations. -/
def GraphInv (rest : List GraphOp) (st : List Node × List Edge) : Prop :=
  (∀ n ∈ st.1, ∃ t, n.id = nodeIdAt t ∧ Nat.repr t ∉ futureReprs rest)
  ∧ (st.1.map Node.id).Nodup
  ∧ (∀ e ∈ st.2, EdgeIdForm e rest)
  ∧ (st.2.map Edge.id).Nodup

/-- The freshness discipline of a whole operation list. -/
def OpsOk (ops : List GraphOp) : Prop :=
  (futureReprs ops).Nodup ∧ ops.Pairwise SufDisjoint ∧ ∀ op ∈ ops, SufOk op

theorem futureReprs_cons (op : GraphOp) (rest : List GraphOp) :
    futureReprs (op :: rest) =
      (opTimes op).map Nat.repr ++ futureReprs rest := by
  unfold futureReprs
  rw [List.map_cons, List.flatten_cons, List.map_append]

theorem noFutureSuffix_tail {r : String} {op : GraphOp}
    {rest : List GraphOp} (h : NoFutureSuffix r (op :: rest)) :
    NoFutureSuffix r rest :=
  fun o ho => h o (List.mem_cons_of_mem op ho)

theorem edgeIdForm_tail {e : Edge} {op : GraphOp} {rest : List GraphOp}
    (h : EdgeIdForm e (op :: rest)) : EdgeIdForm e rest := by
  rcases h with ⟨t, r, h1, h2, h3⟩ | h
  · exact Or.inl ⟨t, r, h1, h2, noFutureSuffix_tail h3⟩
  · exact Or.inr h
theorem nodup_append_one {α : Type} {l : List α} {a : α}
    (h : l.Nodup) (ha : a ∉ l) : (l ++ [a]).Nodup := by
  rw [List.nodup_append]
  refine ⟨h, List.nodup_singleton a, fun x hx hxa => ?_⟩
  rcases List.mem_singleton.mp hxa with rfl
  exact ha hx

theorem graphInv_step (op : GraphOp) (rest : List GraphOp)
    (st : List Node × List Edge)
    (hinv : GraphInv (op :: rest) st) (hok : OpsOk (op :: rest)) :
    GraphInv rest (applyOp st op) := by
  obtain ⟨hnodes, hnodesND, hedges, hedgesND⟩ := hinv
  obtain ⟨hts, hdisj, hsuf⟩ := hok
  cases op with
  | create t =>
      have htfresh : Nat.repr t ∉ futureReprs rest := by
        rw [futureReprs_cons] at hts
        have := hts
        simp only [opTimes, List.map_cons, List.map_nil,
          List.singleton_append] at this
        exact (List.nodup_cons.mp this).1
      refine ⟨?_, ?_, ?_, ?_⟩
      · intro n hn
        rcases List.mem_append.mp hn with hn | hn
        · obtain ⟨t', h1, h2⟩ := hnodes n hn
          refine ⟨t', h1, fun hc => h2 ?_⟩
          rw [futureReprs_cons]
          exact List.mem_append.mpr (Or.inr hc)
        · rcases List.mem_singleton.mp hn with rfl
          exact ⟨t, rfl, htfresh⟩
      · simp only [applyOp]
        rw [List.map_append]
        refine nodup_append_one hnodesND ?_
        intro hc
        obtain ⟨n, hn, hid⟩ := List.mem_map.mp (by simpa using hc)
        obtain ⟨t', h1, h2⟩ := hnodes n hn
        rw [h1] at hid
        have := nodeIdAt_inj_repr t' t hid
        apply h2
        rw [futureReprs_cons]
        simp only [opTimes, List.map_cons, List.map_nil,
          List.singleton_append]
        rw [this]
        exact List.mem_cons_self _ _
      · intro e he
        exact edgeIdForm_tail (hedges e he)
      · exact hedgesND
  | dup t suf origId newColor =>
      have htfresh : Nat.repr t ∉ futureReprs rest := by
        rw [futureReprs_cons] at hts
        simp only [opTimes, List.map_cons, List.map_nil,
          List.singleton_append] at hts
        exact (List.nodup_cons.mp hts).1
      have hsufok : (∀ i, '-' ∉ (suf i).data) ∧ Function.Injective suf :=
        hsuf _ (List.mem_cons_self _ _)
      have hnofut : ∀ i, NoFutureSuffix (suf i) rest := by
        intro i o ho t' suf' orig' c' hoeq j
        subst hoeq
        have hd := List.rel_of_pairwise_cons hdisj ho
        exact fun hc => hd i j hc.symm
      constructor
      · -- node shapes
        intro n hn
        simp only [applyOp] at hn
        rcases hfind : st.1.find? (fun n => n.id = origId) with _ | orig
        · rw [hfind] at hn
          obtain ⟨t', h1, h2⟩ := hnodes n hn
          refine ⟨t', h1, fun hc => h2 ?_⟩
          rw [futureReprs_cons]
          exact List.mem_append.mpr (Or.inr hc)
        · rw [hfind] at hn
          rcases List.mem_append.mp hn with hn | hn
          · obtain ⟨t', h1, h2⟩ := hnodes n hn
            refine ⟨t', h1, fun hc => h2 ?_⟩
            rw [futureReprs_cons]
            exact List.mem_append.mpr (Or.inr hc)
          · rcases List.mem_singleton.mp hn with rfl
            exact ⟨t, rfl, htfresh⟩
      refine ⟨?_, ?_, ?_⟩
      · -- node id nodup
        simp only [applyOp]
        rcases hfind : st.1.find? (fun n => n.id = origId) with _ | orig
        · rw [hfind]
          exact hnodesND
        · rw [hfind]
          dsimp only
          rw [List.map_append]
          refine nodup_append_one hnodesND ?_
          intro hc
          obtain ⟨n, hn, hid⟩ := List.mem_map.mp (by simpa using hc)
          obtain ⟨t', h1, h2⟩ := hnodes n hn
          rw [h1] at hid
          have := nodeIdAt_inj_repr t' t hid
          apply h2
          rw [futureReprs_cons]
          simp only [opTimes, List.map_cons, List.map_nil,
            List.singleton_append]
          rw [this]
          exact List.mem_cons_self _ _
      · -- edge forms
        intro e he
        simp only [applyOp] at he
        rcases List.mem_append.mp he with he | he
        · exact edgeIdForm_tail (hedges e he)
        · obtain ⟨pr, _, hpr⟩ := List.mem_map.mp he
          refine Or.inl ⟨t, suf pr.1, ?_, hsufok.1 pr.1, hnofut pr.1⟩
          rw [← hpr]
      · -- edge id nodup
        simp only [applyOp]
        rw [List.map_append]
        rw [List.nodup_append]
        refine ⟨hedgesND, ?_, ?_⟩
        · -- new batch pairwise distinct
          have hrw : ((st.2.filter
              (fun e => e.source = origId ∨ e.target = origId)).enum.map
              (fun pr : Nat × Edge =>
                { pr.2 with
                  id := dupEdgeIdAt t (suf pr.1),
                  source := if pr.2.source = origId then nodeIdAt t
                    else pr.2.source,
                  target := if pr.2.target = origId then nodeIdAt t
                    else pr.2.target,
                  data := { pr.2.data with
                            color := some newColor } })).map Edge.id =
              (List.range (st.2.filter
                (fun e => e.source = origId ∨
                  e.target = origId)).length).map
                (fun i => dupEdgeIdAt t (suf i)) := by
            rw [List.map_map, ← List.enum_map_fst (st.2.filter
              (fun e => e.source = origId ∨ e.target = origId)),
              List.map_map]
            rfl
          rw [hrw]
          refine List.Nodup.map_on ?_ (List.nodup_range _)
          intro i _ j _ hij
          exact hsufok.2 (dupEdgeIdAt_suffix_inj (hsufok.1 i)
            (hsufok.1 j) hij)
        · -- disjoint from existing edge ids
          intro x hx hx'
          obtain ⟨e, he, hid⟩ := List.mem_map.mp hx
          obtain ⟨e2, he2, hide2⟩ := List.mem_map.mp hx'
          obtain ⟨pr, _, hfe⟩ := List.mem_map.mp he2
          rcases hedges e he with ⟨t', r', hform, hdash, hnf⟩ | ⟨hform, _, _⟩
          · have heq2 : dupEdgeIdAt t' r' = dupEdgeIdAt t (suf pr.1) := by
              rw [← hform, hid, ← hide2, ← hfe]
            have hr : r' = suf pr.1 :=
              dupEdgeIdAt_suffix_inj hdash (hsufok.1 pr.1) heq2
            exact hnf _ (List.mem_cons_self _ _) t suf origId newColor rfl
              pr.1 hr.symm
          · have heq2 : dupEdgeIdAt t (suf pr.1) = rfEdgeId e.source e.target := by
              rw [show dupEdgeIdAt t (suf pr.1) = e2.id from by rw [← hfe],
                hide2, ← hid, hform]
            exact dupEdgeIdAt_ne_rfEdgeId _ _ _ _ heq2
  | connect src tgt =>
      simp only [applyOp]
      by_cases hguard : (st.1.any (fun n => n.id = src)) ∧
          (st.1.any (fun n => n.id = tgt))
      · rw [if_pos hguard]
        have hsrc : NodeIdString src := by
          obtain ⟨n, hn, hp⟩ := List.any_eq_true.mp hguard.1
          obtain ⟨t', h1, _⟩ := hnodes n hn
          exact ⟨t', by rw [← h1]; exact (of_decide_eq_true hp).symm⟩
        have htgt : NodeIdString tgt := by
          obtain ⟨n, hn, hp⟩ := List.any_eq_true.mp hguard.2
          obtain ⟨t', h1, _⟩ := hnodes n hn
          exact ⟨t', by rw [← h1]; exact (of_decide_eq_true hp).symm⟩
        refine ⟨?_, hnodesND, ?_, ?_⟩
        · intro n hn
          obtain ⟨t', h1, h2⟩ := hnodes n hn
          refine ⟨t', h1, fun hc => h2 ?_⟩
          rw [futureReprs_cons]
          exact List.mem_append.mpr (Or.inr hc)
        · intro e he
          unfold addEdge at he
          by_cases hdup : st.2.any (fun x => x.source =
              (freshEdge st.1 src tgt).source ∧ x.target =
              (freshEdge st.1 src tgt).target)
          · rw [if_pos hdup] at he
            exact edgeIdForm_tail (hedges e he)
          · rw [if_neg hdup] at he
            rcases List.mem_append.mp he with he | he
            · exact edgeIdForm_tail (hedges e he)
            · rcases List.mem_singleton.mp he with rfl
              exact Or.inr ⟨rfl, hsrc, htgt⟩
        · unfold addEdge
          by_cases hdup : st.2.any (fun x => x.source =
              (freshEdge st.1 src tgt).source ∧ x.target =
              (freshEdge st.1 src tgt).target)
          · rw [if_pos hdup]
            exact hedgesND
          · rw [if_neg hdup]
            rw [List.map_append]
            refine nodup_append_one hedgesND ?_
            intro hc
            obtain ⟨e, he, hid⟩ := List.mem_map.mp (by simpa using hc)
            rcases hedges e he with ⟨t', r', hform, _, _⟩ |
              ⟨hform, ⟨ts, hts'⟩, ⟨tu, htu⟩⟩
            · exact dupEdgeIdAt_ne_rfEdgeId t' r' src tgt
                (by rw [← hform, hid]; rfl)
            · obtain ⟨tsrc, hsrc'⟩ := hsrc
              obtain ⟨ttgt, htgt'⟩ := htgt
              have heq : rfEdgeId (nodeIdAt ts) (nodeIdAt tu) =
                  rfEdgeId (nodeIdAt tsrc) (nodeIdAt ttgt) := by
                rw [← hts', ← htu, ← hsrc', ← htgt', ← hform, hid]
                rfl
              obtain ⟨h1, h2⟩ := rfEdgeId_inj heq
              apply hdup
              refine List.any_eq_true.mpr ⟨e, he, ?_⟩
              apply decide_eq_true
              constructor
              · show e.source = src
                rw [hts', h1, ← hsrc']
              · show e.target = tgt
                rw [htu, h2, ← htgt']
      · rw [if_neg hguard]
        refine ⟨?_, hnodesND, ?_, hedgesND⟩
        · intro n hn
          obtain ⟨t', h1, h2⟩ := hnodes n hn
          refine ⟨t', h1, fun hc => h2 ?_⟩
          rw [futureReprs_cons]
          exact List.mem_append.mpr (Or.inr hc)
        · intro e he
          exact edgeIdForm_tail (hedges e he)
theorem opsOk_tail {op : GraphOp} {rest : List GraphOp}
    (h : OpsOk (op :: rest)) : OpsOk rest := by
  obtain ⟨h1, h2, h3⟩ := h
  refine ⟨?_, (List.pairwise_cons.mp h2).2,
    fun o ho => h3 o (List.mem_cons_of_mem op ho)⟩
  rw [futureReprs_cons] at h1
  exact h1.of_append_right

theorem graphInv_ops : ∀ (ops : List GraphOp) (st : List Node × List Edge),
    GraphInv ops st → OpsOk ops →
    GraphInv [] (ops.foldl applyOp st) := by
  intro ops
  induction ops with
  | nil => intro st hinv _; exact hinv
  | cons op rest ih =>
      intro st hinv hok
      exact ih (applyOp st op) (graphInv_step op rest st hinv hok)
        (opsOk_tail hok)

/-- Claim C6, amended.  Starting from the empty sheet, after any
sequence of `createNode`/`duplicateNode`/`createEdge` operations whose
`Date.now()` timestamps have pairwise distinct decimal renderings for
the node-creating operations and whose random edge-id suffixes are
dash-free, injective within an operation, and never shared between
operations, all node ids are pairwise distinct and all edge ids are
pairwise distinct.  (Without those freshness assumptions the claim is
false: see the counterexample, two creations in the same
millisecond.) -/
theorem claim_C6_uniqueIds (ops : List GraphOp) (hok : OpsOk ops) :
    ((applyOps ops).1.map Node.id).Nodup
    ∧ ((applyOps ops).2.map Edge.id).Nodup := by
  have h := graphInv_ops ops ([], [])
    ⟨fun n hn => absurd hn (List.not_mem_nil n), List.nodup_nil,
     fun e he => absurd he (List.not_mem_nil e), List.nodup_nil⟩ hok
  exact ⟨h.2.1, h.2.2.2⟩

/-- Counterexample for C6 as stated: two `createNode` calls observing
the same `Date.now()` millisecond mint the same id `node-5`. -/
theorem claim_C6_counterexample :
    (applyOps [GraphOp.create 5, GraphOp.create 5]).1.map Node.id =
      ["node-5", "node-5"]
    ∧ ¬((applyOps [GraphOp.create 5,
        GraphOp.create 5]).1.map Node.id).Nodup := by
  exact ⟨by decide, by decide⟩

/-- Witness for C6: two creations at distinct milliseconds followed by
a connection between them. -/
theorem claim_C6_uniqueIds_witness :
    ((applyOps [GraphOp.create 1, GraphOp.create 2,
        GraphOp.connect (nodeIdAt 1) (nodeIdAt 2)]).1.map Node.id).Nodup
    ∧ ((applyOps [GraphOp.create 1, GraphOp.create 2,
        GraphOp.connect (nodeIdAt 1) (nodeIdAt 2)]).2.map
          Edge.id).Nodup :=
  claim_C6_uniqueIds _
    ⟨by decide,
     List.Pairwise.cons (fun o _ => by cases o <;> trivial)
       (List.Pairwise.cons (fun o _ => by cases o <;> trivial)
         (List.Pairwise.cons (fun o ho => absurd ho (List.not_mem_nil o))
           List.Pairwise.nil)),
     fun op hop => by
       rcases List.mem_cons.mp hop with rfl | hop
       · trivial
       rcases List.mem_cons.mp hop with rfl | hop
       · trivial
       rcases List.mem_cons.mp hop with rfl | hop
       · trivial
       · exact absurd hop (List.not_mem_nil op)⟩
/-! ## Auto-layout layering (`toggleAllExpanded`)

The layout pass partitions nodes, builds incoming/outgoing adjacency
over all edges, seeds the rows with the roots, and repeatedly admits a
target into the next row once all of its sources are in the (live)
visited set; leftover nodes get singleton trailing rows.  The row loop
is embedded with a fuel argument (each pass strictly shrinks the set of
unvisited edge targets, so `edges.length + 1` passes always suffice,
proven by `buildRowsAux_fuel`-style lemmas below). -/

/-- `outgoing[u]`: targets of the edges out of `u`, in edge order. -/
def outgoingIds (edges : List Edge) (u : String) : List String :=
  (edges.filter (fun e => e.source = u)).map Edge.target

/-- `incoming[v]`: sources of the edges into `v`, in edge order. -/
def incomingIds (edges : List Edge) (v : String) : List String :=
  (edges.filter (fun e => e.target = v)).map Edge.source

/-- The inner `targets.forEach` of one node of the current row: admit a
target when it is unvisited and all its sources are visited, adding it
to the live visited set at once. -/
def admitTargets (edges : List Edge) :
    List String → List String → List String → List String × List String
  | [], visited, next => (visited, next)
  | t :: ts, visited, next =>
      if t ∈ visited then admitTargets edges ts visited next
      else if (incomingIds edges t).all (fun s => s ∈ visited) then
        admitTargets edges ts (t :: visited) (next ++ [t])
      else admitTargets edges ts visited next

/-- The `rows[currentRow].forEach` pass over one whole row. -/
def processRow (edges : List Edge) :
    List String → List String → List String → List String × List String
  | [], visited, next => (visited, next)
  | u :: us, visited, next =>
      let vn := admitTargets edges (outgoingIds edges u) visited next
      processRow edges us vn.1 vn.2

/-- Number of edge targets not yet visited: the per-pass measure. -/
def layoutMeasure (edges : List Edge) (visited : List String) : Nat :=
  ((edges.map Edge.target).toFinset \ visited.toFinset).card

/-- The `while (currentRow < rows.length)` loop: the next row is
computed from the current row only, so the loop is this recursion. -/
def buildRowsAux (edges : List Edge) :
    Nat → List String → List String → List (List String) × List String
  | 0, row, visited => ([row], visited)
  | fuel + 1, row, visited =>
      let vn := processRow edges row visited []
      if vn.2.isEmpty then ([row], vn.1)
      else
        let rs := buildRowsAux edges fuel vn.2 vn.1
        (row :: rs.1, rs.2)

def buildRows (edges : List Edge) (row visited : List String) :
    List (List String) × List String :=
  buildRowsAux edges (layoutMeasure edges visited + 1) row visited

/-- Free nodes: no `parentNode` and not a group. -/
def nonChildOf (nodes : List Node) : List Node :=
  nodes.filter (fun n => n.parentNode = none ∧ n.type ≠ NodeType.group)

/-- Root nodes of the layout: free nodes with no incoming edge at all. -/
def layoutRoots (nodes : List Node) (edges : List Edge) : List Node :=
  (nonChildOf nodes).filter (fun n => incomingIds edges n.id = [])

/-- The visited set after the BFS row loop (empty when there are no
roots, since the loop never runs). -/
def layoutVisited (nodes : List Node) (edges : List Edge) : List String :=
  if (layoutRoots nodes edges).isEmpty then []
  else (buildRows edges ((layoutRoots nodes edges).map Node.id)
    ((layoutRoots nodes edges).map Node.id)).2

/-- All layout rows: the BFS rows, then one singleton row per remaining
free node, in node order. -/
def layoutRows (nodes : List Node) (edges : List Edge) :
    List (List String) :=
  (if (layoutRoots nodes edges).isEmpty then []
   else (buildRows edges ((layoutRoots nodes edges).map Node.id)
     ((layoutRoots nodes edges).map Node.id)).1) ++
  ((nonChildOf nodes).filter
    (fun n => n.id ∉ layoutVisited nodes edges)).map (fun n => [n.id])
def c7Nodes : List Node :=
  [{ id := "A", type := NodeType.prompt, position := ⟨0, 0⟩ },
   { id := "U", type := NodeType.prompt, position := ⟨0, 1⟩ },
   { id := "V", type := NodeType.prompt, position := ⟨0, 2⟩ }]

def c7Edges : List Edge :=
  [{ id := "e1", source := "A", target := "U" },
   { id := "e2", source := "A", target := "V" },
   { id := "e3", source := "U", target := "V" }]

theorem admitTargets_spec (edges : List Edge) :
    ∀ ts visited next, ∃ new : List String,
      admitTargets edges ts visited next =
        (new.reverse ++ visited, next ++ new)
      ∧ new.Nodup
      ∧ ∀ x ∈ new, x ∈ ts ∧ x ∉ visited ∧
          ∀ s ∈ incomingIds edges x, s ∈ new ∨ s ∈ visited := by
  intro ts
  induction ts with
  | nil =>
      intro visited next
      exact ⟨[], by simp [admitTargets], List.nodup_nil, by simp⟩
  | cons t ts ih =>
      intro visited next
      by_cases hv : t ∈ visited
      · obtain ⟨new, heq, hnd, hprop⟩ := ih visited next
        refine ⟨new, ?_, hnd, ?_⟩
        · rw [admitTargets, if_pos hv]
          exact heq
        · intro x hx
          obtain ⟨h1, h2, h3⟩ := hprop x hx
          exact ⟨List.mem_cons_of_mem t h1, h2, h3⟩
      · by_cases hall : ((incomingIds edges t).all
            (fun s => s ∈ visited)) = true
        · obtain ⟨new, heq, hnd, hprop⟩ := ih (t :: visited) (next ++ [t])
          refine ⟨t :: new, ?_, ?_, ?_⟩
          · rw [admitTargets, if_neg hv, if_pos hall, heq]
            simp
          · refine List.Nodup.cons ?_ hnd
            intro hmem
            exact ((hprop t hmem).2.1) (List.mem_cons_self t visited)
          · intro x hx
            rcases List.mem_cons.mp hx with rfl | hx
            · refine ⟨List.mem_cons_self x ts, hv, ?_⟩
              intro s hs
              have := List.all_eq_true.mp hall s hs
              exact Or.inr (of_decide_eq_true this)
            · obtain ⟨h1, h2, h3⟩ := hprop x hx
              refine ⟨List.mem_cons_of_mem t h1,
                fun hc => h2 (List.mem_cons_of_mem t hc), ?_⟩
              intro s hs
              rcases h3 s hs with hs' | hs'
              · exact Or.inl (List.mem_cons_of_mem t hs')
              · rcases List.mem_cons.mp hs' with rfl | hs''
                · exact Or.inl (List.mem_cons_self _ _)
                · exact Or.inr hs''
        · obtain ⟨new, heq, hnd, hprop⟩ := ih visited next
          refine ⟨new, ?_, hnd, ?_⟩
          · rw [admitTargets, if_neg hv, if_neg hall]
            exact heq
          · intro x hx
            obtain ⟨h1, h2, h3⟩ := hprop x hx
            exact ⟨List.mem_cons_of_mem t h1, h2, h3⟩

theorem processRow_spec (edges : List Edge) :
    ∀ us visited next, ∃ new : List String,
      processRow edges us visited next =
        (new.reverse ++ visited, next ++ new)
      ∧ new.Nodup
      ∧ ∀ x ∈ new, (∃ u ∈ us, x ∈ outgoingIds edges u) ∧ x ∉ visited ∧
          ∀ s ∈ incomingIds edges x, s ∈ new ∨ s ∈ visited := by
  intro us
  induction us with
  | nil =>
      intro visited next
      exact ⟨[], by simp [processRow], List.nodup_nil, by simp⟩
  | cons u us ih =>
      intro visited next
      obtain ⟨new1, heq1, hnd1, hprop1⟩ :=
        admitTargets_spec edges (outgoingIds edges u) visited next
      obtain ⟨new2, heq2, hnd2, hprop2⟩ :=
        ih (new1.reverse ++ visited) (next ++ new1)
      refine ⟨new1 ++ new2, ?_, ?_, ?_⟩
      · rw [processRow, heq1]
        dsimp only
        rw [heq2]
        rw [List.reverse_append, List.append_assoc, List.append_assoc]
      · rw [List.nodup_append]
        refine ⟨hnd1, hnd2, fun x hx1 hx2 => ?_⟩
        exact (hprop2 x hx2).2.1
          (List.mem_append.mpr (Or.inl (List.mem_reverse.mpr hx1)))
      · intro x hx
        rcases List.mem_append.mp hx with hx | hx
        · obtain ⟨h1, h2, h3⟩ := hprop1 x hx
          refine ⟨⟨u, List.mem_cons_self u us, h1⟩, h2, ?_⟩
          intro s hs
          rcases h3 s hs with hs' | hs'
          · exact Or.inl (List.mem_append.mpr (Or.inl hs'))
          · exact Or.inr hs'
        · obtain ⟨⟨u', hu', h1⟩, h2, h3⟩ := hprop2 x hx
          refine ⟨⟨u', List.mem_cons_of_mem u hu', h1⟩,
            fun hc => h2 (List.mem_append.mpr (Or.inr hc)), ?_⟩
          intro s hs
          rcases h3 s hs with hs' | hs'
          · exact Or.inl (List.mem_append.mpr (Or.inr hs'))
          · rcases List.mem_append.mp hs' with hs'' | hs''
            · exact Or.inl (List.mem_append.mpr
                (Or.inl (List.mem_reverse.mp hs'')))
            · exact Or.inr hs''
theorem mem_outgoing_targets {edges : List Edge} {x u : String}
    (h : x ∈ outgoingIds edges u) : x ∈ edges.map Edge.target := by
  unfold outgoingIds at h
  obtain ⟨e, he, hex⟩ := List.mem_map.mp h
  subst hex
  exact List.mem_map_of_mem _ (List.mem_of_mem_filter he)

theorem buildRowsAux_spec (edges : List Edge) :
    ∀ fuel row visited,
      layoutMeasure edges visited < fuel →
      (∀ x ∈ row, x ∈ visited) →
      (∃ h0 : 0 < (buildRowsAux edges fuel row visited).1.length,
        (buildRowsAux edges fuel row visited).1.get ⟨0, h0⟩ = row)
      ∧ (∀ x ∈ visited, x ∈ (buildRowsAux edges fuel row visited).2)
      ∧ (∀ x ∈ (buildRowsAux edges fuel row visited).2, x ∈ visited ∨
          ∃ k, ∃ hk : k < (buildRowsAux edges fuel row visited).1.length,
            1 ≤ k ∧ x ∈ (buildRowsAux edges fuel row visited).1.get ⟨k, hk⟩)
      ∧ (∀ k (hk : k < (buildRowsAux edges fuel row visited).1.length),
          1 ≤ k → ∀ x ∈ (buildRowsAux edges fuel row visited).1.get ⟨k, hk⟩,
            x ∉ visited ∧ x ∈ (buildRowsAux edges fuel row visited).2 ∧
            ∀ s ∈ incomingIds edges x, s ∈ visited ∨
              ∃ k', ∃ hk' : k' <
                  (buildRowsAux edges fuel row visited).1.length,
                1 ≤ k' ∧ k' ≤ k ∧
                s ∈ (buildRowsAux edges fuel row visited).1.get ⟨k', hk'⟩)
      ∧ (∀ k k' (hk : k < (buildRowsAux edges fuel row visited).1.length)
          (hk' : k' < (buildRowsAux edges fuel row visited).1.length),
          1 ≤ k → k < k' →
          ∀ x ∈ (buildRowsAux edges fuel row visited).1.get ⟨k, hk⟩,
            x ∉ (buildRowsAux edges fuel row visited).1.get ⟨k', hk'⟩) := by
  intro fuel
  induction fuel with
  | zero =>
      intro row visited hfuel _
      exact absurd hfuel (Nat.not_lt_zero _)
  | succ f ih =>
      intro row visited hfuel hrow
      obtain ⟨new, heq, hnd, hprop⟩ := processRow_spec edges row visited []
      rw [List.nil_append] at heq
      by_cases hne : new = []
      · subst hne
        have hbr : buildRowsAux edges (f + 1) row visited =
            ([row], visited) := by
          rw [buildRowsAux, heq]
          simp
        rw [hbr]
        refine ⟨⟨by simp, rfl⟩, fun x hx => hx, fun x hx => Or.inl hx,
          ?_, ?_⟩
        · intro k hk h1 x hx
          simp at hk
          omega
        · intro k k' hk hk' h1 hlt x hx
          simp at hk hk'
          omega
      · have hsubv : ∀ x ∈ new, x ∈ new.reverse ++ visited := fun x hx =>
          List.mem_append.mpr (Or.inl (List.mem_reverse.mpr hx))
        have hmeas : layoutMeasure edges (new.reverse ++ visited) <
            layoutMeasure edges visited := by
          unfold layoutMeasure
          obtain ⟨x0, hx0⟩ := List.exists_mem_of_ne_nil new hne
          apply Finset.card_lt_card
          rw [Finset.ssubset_iff_of_subset (Finset.sdiff_subset_sdiff
            (Finset.Subset.refl _) ?_)]
          · refine ⟨x0, ?_, ?_⟩
            · rw [Finset.mem_sdiff, List.mem_toFinset, List.mem_toFinset]
              obtain ⟨⟨u, _, hout⟩, hnv, _⟩ := hprop x0 hx0
              exact ⟨mem_outgoing_targets hout, hnv⟩
            · rw [Finset.mem_sdiff, List.mem_toFinset, List.mem_toFinset]
              intro ⟨_, hc⟩
              exact hc (hsubv x0 hx0)
          · intro x hx
            rw [List.mem_toFinset] at hx ⊢
            exact List.mem_append.mpr (Or.inr hx)
        have hrec := ih new (new.reverse ++ visited) (by omega) hsubv
        have hbr : buildRowsAux edges (f + 1) row visited =
            (row :: (buildRowsAux edges f new (new.reverse ++ visited)).1,
             (buildRowsAux edges f new (new.reverse ++ visited)).2) := by
          rw [buildRowsAux, heq]
          dsimp only
          rw [if_neg (by simpa using hne)]
        rw [hbr]
        obtain ⟨⟨h0rs, hhead⟩, hmono, hvf, hrows, hdisj⟩ := hrec
        set rs := (buildRowsAux edges f new (new.reverse ++ visited)).1
          with hrs
        set vf := (buildRowsAux edges f new (new.reverse ++ visited)).2
          with hvfdef
        refine ⟨⟨by simp, rfl⟩, ?_, ?_, ?_, ?_⟩
        · intro x hx
          exact hmono x (List.mem_append.mpr (Or.inr hx))
        · intro x hx
          rcases hvf x hx with hx' | ⟨k, hk, h1, hk2⟩
          · rcases List.mem_append.mp hx' with hx'' | hx''
            · refine Or.inr ⟨1, by simpa using h0rs, le_refl 1, ?_⟩
              show x ∈ rs.get ⟨0, h0rs⟩
              rw [hhead]
              exact List.mem_reverse.mp hx''
            · exact Or.inl hx''
          · exact Or.inr ⟨k + 1, by simpa using Nat.succ_lt_succ hk,
              by omega, hk2⟩
        · intro k hk h1 x hx
          match k, h1 with
          | 1, _ =>
              have hk0 : 0 < rs.length := by simpa using hk
              have hxnew : x ∈ new := by
                have := hx
                rw [show ((row :: rs).get ⟨1, hk⟩ : List String) =
                  rs.get ⟨0, hk0⟩ from rfl, hhead] at this
                exact this
              obtain ⟨_, hnv, hsrc⟩ := hprop x hxnew
              refine ⟨hnv, hmono x (hsubv x hxnew), ?_⟩
              intro s hs
              rcases hsrc s hs with hs' | hs'
              · refine Or.inr ⟨1, hk, le_refl 1, le_refl 1, ?_⟩
                show s ∈ rs.get ⟨0, hk0⟩
                rw [hhead]
                exact hs'
              · exact Or.inl hs'
          | j + 2, _ =>
              have hkj : j + 1 < rs.length := by
                simp only [List.length_cons] at hk
                omega
              have hxj : x ∈ rs.get ⟨j + 1, hkj⟩ := hx
              obtain ⟨hnv', hvf', hsrc'⟩ := hrows (j + 1) hkj
                (by omega) x hxj
              refine ⟨fun hc => hnv'
                (List.mem_append.mpr (Or.inr hc)), hvf', ?_⟩
              intro s hs
              rcases hsrc' s hs with hs' | ⟨k', hk', h1', hle', hmem'⟩
              · rcases List.mem_append.mp hs' with hs'' | hs''
                · have hk0 : 0 < rs.length := by omega
                  refine Or.inr ⟨1, by simpa using Nat.succ_lt_succ hk0,
                    le_refl 1, by omega, ?_⟩
                  show s ∈ rs.get ⟨0, hk0⟩
                  rw [hhead]
                  exact List.mem_reverse.mp hs''
                · exact Or.inl hs''
              · exact Or.inr ⟨k' + 1, by simpa using Nat.succ_lt_succ hk',
                  by omega, by omega, hmem'⟩
        · intro k k' hk hk' h1 hlt x hx hx'
          match k, h1 with
          | 1, _ =>
              have hk0 : 0 < rs.length := by simpa using hk
              have hxnew : x ∈ new := by
                have := hx
                rw [show ((row :: rs).get ⟨1, hk⟩ : List String) =
                  rs.get ⟨0, hk0⟩ from rfl, hhead] at this
                exact this
              match k', hlt with
              | j' + 2, _ =>
                  have hkj' : j' + 1 < rs.length := by
                    simp only [List.length_cons] at hk'
                    omega
                  have hxj' : x ∈ rs.get ⟨j' + 1, hkj'⟩ := hx'
                  exact (hrows (j' + 1) hkj' (by omega) x hxj').1
                    (hsubv x hxnew)
          | j + 2, _ =>
              have hkj : j + 1 < rs.length := by
                simp only [List.length_cons] at hk
                omega
              match k', hlt with
              | j' + 2, _ =>
                  have hkj' : j' + 1 < rs.length := by
                    simp only [List.length_cons] at hk'
                    omega
                  exact hdisj (j + 1) (j' + 1) hkj hkj' (by omega)
                    (by omega) x hx hx'
theorem get_append_right_mem {α : Type} (l l' : List α) :
    ∀ i (h1 : l.length ≤ i) (h2 : i < (l ++ l').length),
      (l ++ l').get ⟨i, h2⟩ ∈ l' := by
  induction l with
  | nil =>
      intro i h1 h2
      exact List.get_mem l' i (by simpa using h2)
  | cons a as ih =>
      intro i h1 h2
      cases i with
      | zero => simp at h1
      | succ j =>
          exact ih j (by simp only [List.length_cons] at h1; omega)
            (by simp only [List.cons_append, List.length_cons] at h2; omega)

theorem mem_incoming_of_edge {edges : List Edge} {e : Edge}
    (he : e ∈ edges) : e.source ∈ incomingIds edges e.target := by
  unfold incomingIds
  refine List.mem_map.mpr ⟨e, ?_, rfl⟩
  exact List.mem_filter.mpr ⟨he, decide_eq_true rfl⟩

theorem layoutRoots_no_incoming {nodes : List Node} {edges : List Edge}
    {n : Node} (h : n ∈ layoutRoots nodes edges) :
    incomingIds edges n.id = [] := by
  unfold layoutRoots at h
  have h1 := List.of_mem_filter h
  exact of_decide_eq_true h1

/-- The target of an edge is never a layout root. -/
theorem edge_target_not_root {nodes : List Node} {edges : List Edge}
    {e : Edge} (he : e ∈ edges) :
    e.target ∉ (layoutRoots nodes edges).map Node.id := by
  intro hc
  obtain ⟨n, hn, hid⟩ := List.mem_map.mp hc
  have h1 := layoutRoots_no_incoming hn
  have h2 := mem_incoming_of_edge he
  rw [← hid, h1] at h2
  exact List.not_mem_nil _ h2
theorem getElem?_some_get {α : Type} {l : List α} {i : Nat} {a : α}
    (h : l[i]? = some a) : ∃ hi : i < l.length, l.get ⟨i, hi⟩ = a := by
  rw [List.getElem?_eq_some] at h
  exact h

theorem mem_of_getElem?_some {α : Type} {l : List α} {i : Nat} {a : α}
    (h : l[i]? = some a) : a ∈ l := by
  obtain ⟨hi, hh⟩ := getElem?_some_get h
  rw [← hh]
  exact List.get_mem l i hi

/-- Claim C7, amended.  For an edge `u→v` between free nodes: when `v`
is reached by the layering loop, every row containing `v` comes no
earlier than any row containing `u` — `row(v) ≥ row(u)`, not
`row(v) ≥ row(u) + 1`, because a target can be admitted in the same
pass as one of its sources (see the counterexample); when `v` is not
reached, `v` occupies its own singleton trailing row.  (Freeness of `u`
is not even needed.) -/
theorem claim_C7_layering (nodes : List Node) (edges : List Edge)
    (e : Edge) (he : e ∈ edges)
    (hv : e.target ∈ (nonChildOf nodes).map Node.id) :
    (e.target ∈ layoutVisited nodes edges →
      ∀ (i j : Nat) (ra rb : List String),
        (layoutRows nodes edges)[i]? = some ra →
        (layoutRows nodes edges)[j]? = some rb →
        e.source ∈ ra → e.target ∈ rb → i ≤ j)
    ∧ (e.target ∉ layoutVisited nodes edges →
        [e.target] ∈ layoutRows nodes edges) := by
  constructor
  · intro hvis i j ra rb hra hrb hsrc htgt
    by_cases hroots : (layoutRoots nodes edges).isEmpty
    · unfold layoutVisited at hvis
      rw [if_pos hroots] at hvis
      exact absurd hvis (List.not_mem_nil _)
    · have hvisO := hvis
      have hVF : layoutVisited nodes edges =
          (buildRowsAux edges
            (layoutMeasure edges ((layoutRoots nodes edges).map Node.id)
              + 1)
            ((layoutRoots nodes edges).map Node.id)
            ((layoutRoots nodes edges).map Node.id)).2 := by
        unfold layoutVisited buildRows
        rw [if_neg hroots]
      have hR : layoutRows nodes edges =
          (buildRowsAux edges
            (layoutMeasure edges ((layoutRoots nodes edges).map Node.id)
              + 1)
            ((layoutRoots nodes edges).map Node.id)
            ((layoutRoots nodes edges).map Node.id)).1 ++
          ((nonChildOf nodes).filter
            (fun n => n.id ∉ layoutVisited nodes edges)).map
            (fun n => [n.id]) := by
        unfold layoutRows buildRows
        rw [if_neg hroots]
      obtain ⟨⟨h0len, hhead⟩, hmono, hvfc, hrows, hdisj⟩ :=
        buildRowsAux_spec edges
          (layoutMeasure edges ((layoutRoots nodes edges).map Node.id)
            + 1)
          ((layoutRoots nodes edges).map Node.id)
          ((layoutRoots nodes edges).map Node.id)
          (by omega) (fun x hx => hx)
      rw [hVF] at hvis
      rw [hR] at hra hrb
      rw [List.getElem?_append] at hra hrb
      -- locate the target's unique BFS row kv
      rcases hvfc e.target hvis with htr | ⟨kv, hkv, hkv1, hkvmem⟩
      · exact absurd htr (edge_target_not_root he)
      -- j is inside the BFS rows and equals kv
      by_cases hjlt : j <
          (buildRowsAux edges
            (layoutMeasure edges ((layoutRoots nodes edges).map Node.id)
              + 1)
            ((layoutRoots nodes edges).map Node.id)
            ((layoutRoots nodes edges).map Node.id)).1.length
      · rw [if_pos hjlt] at hrb
        obtain ⟨hj', hgetj⟩ := getElem?_some_get hrb
        rcases Nat.eq_zero_or_pos j with hj0 | hj1
        · subst hj0
          have : e.target ∈ (layoutRoots nodes edges).map Node.id := by
            rw [← hhead]
            have hgetj' : (buildRowsAux edges
                (layoutMeasure edges
                  ((layoutRoots nodes edges).map Node.id) + 1)
                ((layoutRoots nodes edges).map Node.id)
                ((layoutRoots nodes edges).map Node.id)).1.get
                  ⟨0, h0len⟩ = rb := hgetj
            rw [hgetj']
            exact htgt
          exact absurd this (edge_target_not_root he)
        · have hjkv : j = kv := by
            rcases Nat.lt_trichotomy j kv with hlt | heqk | hgt
            · exact absurd hkvmem
                (hdisj j kv hj' hkv (by omega) hlt e.target
                  (by rw [hgetj]; exact htgt))
            · exact heqk
            · exact absurd (by rw [hgetj]; exact htgt)
                (hdisj kv j hkv hj' (by omega) hgt e.target hkvmem)
          -- now place the source
          rcases Nat.eq_zero_or_pos i with hi0 | hi1
          · omega
          · -- i ≥ 1: the source sits in a BFS row k' ≤ kv
            obtain ⟨_, _, hsrcs⟩ := hrows kv hkv hkv1 e.target hkvmem
            have hsrcpos := hsrcs e.source (mem_incoming_of_edge he)
            by_cases hilt : i <
                (buildRowsAux edges
                  (layoutMeasure edges
                    ((layoutRoots nodes edges).map Node.id) + 1)
                  ((layoutRoots nodes edges).map Node.id)
                  ((layoutRoots nodes edges).map Node.id)).1.length
            · rw [if_pos hilt] at hra
              obtain ⟨hi', hgeti⟩ := getElem?_some_get hra
              have hsrcmem : e.source ∈ (buildRowsAux edges
                  (layoutMeasure edges
                    ((layoutRoots nodes edges).map Node.id) + 1)
                  ((layoutRoots nodes edges).map Node.id)
                  ((layoutRoots nodes edges).map Node.id)).1.get
                    ⟨i, hi'⟩ := by
                rw [hgeti]
                exact hsrc
              have hnotroot := (hrows i hi' (by omega) e.source hsrcmem).1
              rcases hsrcpos with hsr | ⟨k', hk', h1', hle', hmem'⟩
              · exact absurd hsr hnotroot
              · have : i = k' := by
                  rcases Nat.lt_trichotomy i k' with hlt | heqk | hgt
                  · exact absurd hmem'
                      (hdisj i k' hi' hk' (by omega) hlt e.source hsrcmem)
                  · exact heqk
                  · exact absurd hsrcmem
                      (hdisj k' i hk' hi' (by omega) hgt e.source hmem')
                omega
            · -- i in the singles region: impossible, the source is visited
              rw [if_neg hilt] at hra
              have hmemS := mem_of_getElem?_some hra
              obtain ⟨n, hn, hns⟩ := List.mem_map.mp hmemS
              have hnid : n.id ∉ layoutVisited nodes edges := by
                have h1 := List.of_mem_filter hn
                exact of_decide_eq_true h1
              have hsrcid : e.source = n.id := by
                rw [← hns] at hsrc
                exact List.mem_singleton.mp hsrc
              have hsrcvf : e.source ∈ layoutVisited nodes edges := by
                rw [hVF]
                rcases hsrcpos with hsr | ⟨k', hk', h1', _, hmem'⟩
                · exact hmono e.source hsr
                · exact (hrows k' hk' (by omega) e.source hmem').2.1
              rw [hsrcid] at hsrcvf
              exact absurd hsrcvf hnid
      · -- j in the singles region: impossible, the target is visited
        rw [if_neg hjlt] at hrb
        have hmemS := mem_of_getElem?_some hrb
        obtain ⟨n, hn, hns⟩ := List.mem_map.mp hmemS
        have hnid : n.id ∉ layoutVisited nodes edges := by
          have h1 := List.of_mem_filter hn
          exact of_decide_eq_true h1
        have htgtid : e.target = n.id := by
          rw [← hns] at htgt
          exact List.mem_singleton.mp htgt
        rw [htgtid] at hvisO
        exact absurd hvisO hnid
  · intro hnv
    unfold layoutRows
    refine List.mem_append.mpr (Or.inr ?_)
    obtain ⟨nv, hnvmem, hnvid⟩ := List.mem_map.mp hv
    refine List.mem_map.mpr ⟨nv, ?_, by rw [hnvid]⟩
    refine List.mem_filter.mpr ⟨hnvmem, ?_⟩
    apply decide_eq_true
    rw [hnvid]
    exact hnv
/-- Counterexample for C7 as stated: in the sheet `A→U`, `A→V`, `U→V`
the layout computes rows `[[A], [U, V]]`: `V` is admitted in the same
pass as its source `U` (all of `V`'s sources are in the live visited set
by then), so for the edge `U→V` the only row containing `V` is row 1,
which also is the only row containing `U` — `row(V) = row(U)`, not
`row(V) ≥ row(U) + 1`, and `V` is reached, so the unreachable exception
does not apply. -/
theorem claim_C7_counterexample :
    ({ id := "e3", source := "U", target := "V" } : Edge) ∈ c7Edges
    ∧ layoutRows c7Nodes c7Edges = [["A"], ["U", "V"]]
    ∧ "V" ∈ layoutVisited c7Nodes c7Edges
    ∧ (∀ k : Nat,
        (∃ r, (layoutRows c7Nodes c7Edges)[k]? = some r ∧ "V" ∈ r) →
          k = 1)
    ∧ (∀ k : Nat,
        (∃ r, (layoutRows c7Nodes c7Edges)[k]? = some r ∧ "U" ∈ r) →
          k = 1)
    ∧ ¬(1 ≥ 1 + 1) := by
  have hR : layoutRows c7Nodes c7Edges = [["A"], ["U", "V"]] := by decide
  refine ⟨by decide, hR, by decide, ?_, ?_, by decide⟩
  · intro k ⟨r, hr, hvr⟩
    rw [hR] at hr
    match k with
    | 0 =>
        injection hr with h
        subst h
        exact absurd hvr (by decide)
    | 1 => rfl
    | k + 2 => exact Option.noConfusion hr
  · intro k ⟨r, hr, hvr⟩
    rw [hR] at hr
    match k with
    | 0 =>
        injection hr with h
        subst h
        exact absurd hvr (by decide)
    | 1 => rfl
    | k + 2 => exact Option.noConfusion hr

/-- Witness for C7: the row-order conclusion evaluated on the
counterexample sheet (both endpoints in row 1, so `1 ≤ 1`), and the
singleton-row conclusion on the rootless cycle `A→B→A`. -/
theorem claim_C7_layering_witness :
    (1 : Nat) ≤ 1
    ∧ ["A"] ∈ layoutRows cycNodes cycEdges :=
  ⟨(claim_C7_layering c7Nodes c7Edges
      { id := "e3", source := "U", target := "V" } (by decide)
      (by decide)).1 (by decide) 1 1 ["U", "V"] ["U", "V"]
      (by decide) (by decide) (by decide) (by decide),
   (claim_C7_layering cycNodes cycEdges
      { id := "e2", source := "B", target := "A",
        data := { active := some true } } (by decide)
      (by decide)).2 (by decide)⟩

end PromptCanvas
